import Mathlib

/-!
Verification development for the microbots task-orchestration core
(MicroBot.run, the command-safety validator, the LLMInterface context
manager and response validator, and the LocalDocker execute wrapper).

The Python source is shallowly embedded: strings are `String`/`List Char`,
Python ints are `Int`/`Nat`, `None` is `Option.none`, raised exceptions are
`Except.error`, and the external collaborators (the LLM backend, the
container runtime, the wall clock) are oracles supplied as explicit
function arguments, matching the source's abstract interfaces.

Character-level conventions: Python's `re` word characters and case
folding are modelled at the ASCII level (`Char.isAlphanum`, `Char.toLower`),
which coincides with Python on the ASCII commands the validator is
specified over.
-/

namespace Microbots

/-! ## Basic character and string utilities -/

/-- Python whitespace for `str.strip` / regex `\s` (ASCII fragment). -/
def isPySpace (c : Char) : Bool :=
  c = ' ' || c = '\t' || c = '\n' || c = '\r' || c = '\x0b' || c = '\x0c'

/-- Whitespace of `shlex` (`shlex.whitespace = " \t\r\n"`). -/
def isShlexSpace (c : Char) : Bool :=
  c = ' ' || c = '\t' || c = '\r' || c = '\n'

/-- Regex word character `\w` (ASCII fragment): alphanumeric or underscore. -/
def isWordChar (c : Char) : Bool :=
  c.isAlphanum || c = '_'

/-- Case-insensitive character comparison against a lowercase target,
modelling `re.IGNORECASE` at the ASCII level. -/
def lowEq (c t : Char) : Bool :=
  c.toLower = t

/-- The apostrophe character (shell single quote). -/
def squote : Char := Char.ofNat 39

/-- Python `str.strip()` on a character list. -/
def pyStrip (s : List Char) : List Char :=
  ((s.dropWhile isPySpace).reverse.dropWhile isPySpace).reverse

/-- Python `str.rstrip()` on a character list. -/
def pyRstrip (s : List Char) : List Char :=
  (s.reverse.dropWhile isPySpace).reverse

/-- Python `str.strip()` on a string. -/
def pyStripS (s : String) : String :=
  String.mk (pyStrip s.data)

/-- Python `str.rstrip()` on a string. -/
def pyRstripS (s : String) : String :=
  String.mk (pyRstrip s.data)

/-- Case-insensitive literal-prefix test: does `lit` (given in lowercase)
start the text here?  Models matching a literal under `re.IGNORECASE`. -/
def litHereCI : List Char → List Char → Bool
  | [], _ => true
  | _ :: _, [] => false
  | t :: ts, c :: cs => lowEq c t && litHereCI ts cs

/-- Case-insensitive substring test (any start position). -/
def containsCI (lit : List Char) : List Char → Bool
  | [] => litHereCI lit []
  | c :: rest => litHereCI lit (c :: rest) || containsCI lit rest

/-- Case-sensitive substring test, Python's `sub in s`. -/
def containsLit (lit : List Char) : List Char → Bool
  | [] => lit.isPrefixOf []
  | c :: rest => lit.isPrefixOf (c :: rest) || containsLit lit rest

/-- Python `sub in s` for strings. -/
def strContains (s sub : String) : Bool :=
  containsLit sub.data s.data

/-- Python `s.startswith(pre)` (kernel-computable, unlike
`String.startsWith`). -/
def pyStartsWith (s pre : String) : Bool :=
  pre.data.isPrefixOf s.data

/-- Number of start positions at which `sub` occurs in the list
(overlapping occurrences all counted); `sub` is assumed nonempty. -/
def countOccur (sub : List Char) : List Char → Nat
  | [] => 0
  | c :: rest => (if sub.isPrefixOf (c :: rest) then 1 else 0) + countOccur sub rest

/-- Prefix of the text before the first occurrence of `sep` (the whole text
when `sep` does not occur): Python `s.split(sep)[0]`. -/
def splitHeadL (sep : List Char) : List Char → List Char
  | [] => []
  | c :: rest => if sep.isPrefixOf (c :: rest) then [] else c :: splitHeadL sep rest

/-- Suffix of the text after the first occurrence of `sep`, or `none` when
`sep` does not occur. -/
def splitTailL (sep : List Char) : List Char → Option (List Char)
  | [] => none
  | c :: rest =>
    if sep.isPrefixOf (c :: rest) then some ((c :: rest).drop sep.length)
    else splitTailL sep rest

/-- Python `s.split(sep)[0]`. -/
def splitHeadS (sep s : String) : String :=
  String.mk (splitHeadL sep.data s.data)

/-- Python `s.split(sep)[1]`: the segment between the first and second
occurrence of `sep`.  Python raises `IndexError` when `sep` does not occur;
the source only evaluates this under an `in`-guard that ensures at least one
occurrence, and we return `""` on the out-of-range corner. -/
def splitSecondS (sep s : String) : String :=
  match splitTailL sep.data s.data with
  | some r => String.mk (splitHeadL sep.data r)
  | none => ""

/-- Split a character list at every newline (pieces do not contain the
separator); always returns at least one piece. -/
def splitNl : List Char → List (List Char)
  | [] => [[]]
  | c :: rest =>
    if c = '\n' then [] :: splitNl rest
    else
      match splitNl rest with
      | t :: ts => (c :: t) :: ts
      | [] => [[c]]

/-- Join pieces with a newline between consecutive pieces (inverse of
`splitNl`). -/
def joinNl : List (List Char) → List Char
  | [] => []
  | [l] => l
  | l :: ls => l ++ '\n' :: joinNl ls

/-- Python `str.splitlines()` restricted to `\n` line breaks: the final
empty piece produced by a trailing newline is dropped, and the empty string
has no lines. -/
def pyLines (s : String) : List String :=
  if s = "" then []
  else
    let p := (splitNl s.data).map String.mk
    if p.getLast? = some "" then p.dropLast else p

/-- Python `"\n".join(lines)`. -/
def joinLines (ls : List String) : String :=
  String.mk (joinNl (ls.map String.data))

/-- Python list slice `xs[k:]` for a possibly negative `k`. -/
def pySliceFrom {α : Type} (k : Int) (xs : List α) : List α :=
  if 0 ≤ k then xs.drop k.toNat
  else xs.drop (xs.length - (-k).toNat)

/-- Python `int(text)`: optional surrounding whitespace, an optional sign,
then at least one digit.  (Underscore digit grouping, accepted by Python,
is not modelled; no claim depends on it.) -/
def pyParseInt (s : List Char) : Option Int :=
  let t := pyStrip s
  let core : List Char → Option Int := fun ds =>
    if ds = [] || !ds.all Char.isDigit then none
    else some (ds.foldl (fun a c => a * 10 + (c.toNat - '0'.toNat : Int)) 0)
  match t with
  | '+' :: ds => core ds
  | '-' :: ds => (core ds).map Int.neg
  | ds => core ds

/-! ## Command safety validator (`MicroBot._get_dangerous_command_explanation`)

Each blocklist regex from the source is hand-compiled into a dedicated
matcher over `List Char` with the semantics of `re.search(pattern, s,
re.IGNORECASE)`.  The searched patterns are:

1. `\bls\s+(?:[^-]*\s+)?-[a-z]*[rR](?:[a-z]*\b|\s|$)`
2. `\btree\b`
3. `\brm\s+(?:[^-]*\s+)?-[a-z]*[rR](?:[a-z]*\b|\s|$)`
4. `\brm\s+--recursive\b`
5. `\bfind\b(?!.*-maxdepth)`
-/

/-- A `\b` boundary before a word character: start of text, or previous
character not a word character. -/
def atWordStart : Option Char → Bool
  | none => true
  | some c => !isWordChar c

/-- A `\b` boundary after a word character: end of text, or next character
not a word character. -/
def boundaryAfter : List Char → Bool
  | [] => true
  | c :: _ => !isWordChar c

/-- `[a-z]*\b` under `IGNORECASE`, where the previous character is a word
character: consume letters while possible and require a word boundary at
the stopping point. -/
def alphaBoundary : List Char → Bool
  | [] => true
  | c :: rest => if c.isAlpha then alphaBoundary rest else !isWordChar c

/-- The tail group `(?:[a-z]*\b|\s|$)` of the recursive `ls`/`rm`
patterns. -/
def lsTail : List Char → Bool
  | [] => true
  | c :: rest => isPySpace c || alphaBoundary (c :: rest)

/-- `[a-z]*[rR]` followed by the tail group, under `IGNORECASE`. -/
def dashSeq : List Char → Bool
  | [] => false
  | c :: rest => (lowEq c 'r' && lsTail rest) || (c.isAlpha && dashSeq rest)

/-- Scan for the first `-` in the text; the pattern `\s+(?:[^-]*\s+)?-`
matches exactly when the first `-` exists and is directly preceded by a
whitespace character (and the scan skips no `-`); `prev` is the previously
consumed character. -/
def findDashThen : Char → List Char → Bool
  | _, [] => false
  | prev, c :: rest =>
    if c = '-' then isPySpace prev && dashSeq rest
    else findDashThen c rest

/-- The suffix `\s+(?:[^-]*\s+)?-[a-z]*[rR](?:[a-z]*\b|\s|$)` of the
recursive `ls`/`rm` patterns, to be matched right after the command word. -/
def afterCmdFlags : List Char → Bool
  | [] => false
  | c :: rest => isPySpace c && findDashThen c rest

/-- Match `ls` here (case-insensitively) and return the rest. -/
def lsAt : List Char → Option (List Char)
  | a :: b :: rest => if lowEq a 'l' && lowEq b 's' then some rest else none
  | _ => none

/-- Match `rm` here (case-insensitively) and return the rest. -/
def rmAt : List Char → Option (List Char)
  | a :: b :: rest => if lowEq a 'r' && lowEq b 'm' then some rest else none
  | _ => none

/-- Match `tree` plus a trailing `\b` here (case-insensitively). -/
def treeAt : List Char → Bool
  | a :: b :: c :: d :: rest =>
    lowEq a 't' && lowEq b 'r' && lowEq c 'e' && lowEq d 'e' && boundaryAfter rest
  | _ => false

/-- Match `find` here (case-insensitively) and return the rest after it. -/
def findAt : List Char → Option (List Char)
  | a :: b :: c :: d :: rest =>
    if lowEq a 'f' && lowEq b 'i' && lowEq c 'n' && lowEq d 'd' then some rest else none
  | _ => none

/-- `re.search` for pattern 1, `\bls\s+(?:[^-]*\s+)?-[a-z]*[rR](?:[a-z]*\b|\s|$)`. -/
def searchLsRecursive : Option Char → List Char → Bool
  | _, [] => false
  | prev, c :: rest =>
    (atWordStart prev &&
      (match lsAt (c :: rest) with
       | some r => afterCmdFlags r
       | none => false)) ||
    searchLsRecursive (some c) rest

/-- `re.search` for pattern 2, `\btree\b`. -/
def searchTree : Option Char → List Char → Bool
  | _, [] => false
  | prev, c :: rest => (atWordStart prev && treeAt (c :: rest)) || searchTree (some c) rest

/-- `re.search` for pattern 3, `\brm\s+(?:[^-]*\s+)?-[a-z]*[rR](?:[a-z]*\b|\s|$)`. -/
def searchRmRecursive : Option Char → List Char → Bool
  | _, [] => false
  | prev, c :: rest =>
    (atWordStart prev &&
      (match rmAt (c :: rest) with
       | some r => afterCmdFlags r
       | none => false)) ||
    searchRmRecursive (some c) rest

/-- The literal `--recursive`. -/
def ddRecursive : List Char := "--recursive".data

/-- Case-insensitive literal match followed by a `\b` boundary (the literal
ends in a word character). -/
def litCIThenBoundary (lit : List Char) (s : List Char) : Bool :=
  litHereCI lit s && boundaryAfter (s.drop lit.length)

/-- Match `rm\s+--recursive\b` starting here. -/
def rmDashRecursiveAt (s : List Char) : Bool :=
  match rmAt s with
  | some (c :: rest) =>
    isPySpace c && litCIThenBoundary ddRecursive ((c :: rest).dropWhile isPySpace)
  | _ => false

/-- `re.search` for pattern 4, `\brm\s+--recursive\b`. -/
def searchRmDashRecursive : Option Char → List Char → Bool
  | _, [] => false
  | prev, c :: rest =>
    (atWordStart prev && rmDashRecursiveAt (c :: rest)) || searchRmDashRecursive (some c) rest

/-- The literal `-maxdepth`. -/
def maxdepthLit : List Char := "-maxdepth".data

/-- Match `\bfind\b(?!.*-maxdepth)` starting here: the negative lookahead
`.*-maxdepth` (with `.` not crossing a newline) succeeds exactly when
`-maxdepth` occurs in the first line of the remaining text. -/
def findUnboundedAt (s : List Char) : Bool :=
  match findAt s with
  | some rest =>
    boundaryAfter rest && !containsCI maxdepthLit (rest.takeWhile (fun c => c ≠ '\n'))
  | none => false

/-- `re.search` for pattern 5, `\bfind\b(?!.*-maxdepth)`. -/
def searchFindNoDepth : Option Char → List Char → Bool
  | _, [] => false
  | prev, c :: rest =>
    (atWordStart prev && findUnboundedAt (c :: rest)) || searchFindNoDepth (some c) rest

/-- Explanation for an empty, `None`, or non-string command. -/
def invalidCommandExplanation : String :=
  "REASON: Empty or invalid command provided\nALTERNATIVE: Provide a valid shell command"

/-- Explanation for a whitespace-only command. -/
def whitespaceCommandExplanation : String :=
  "REASON: Empty or whitespace-only command provided\nALTERNATIVE: Provide a valid shell command"

/-- Explanation attached to blocklist pattern 1. -/
def lsRecursiveExplanation : String :=
  "REASON: Recursive ls commands (ls -R) can generate massive output in large repositories, exceeding context limits\nALTERNATIVE: Use targeted paths like \"ls drivers/block/\" or \"ls -la <specific-directory>\" instead"

/-- Explanation attached to blocklist pattern 2. -/
def treeExplanation : String :=
  "REASON: Tree command recursively lists entire directory structures, which can exceed context limits\nALTERNATIVE: Use \"ls -la <specific-directory>\" or \"find <path> -maxdepth 2 -type d\" for controlled exploration"

/-- Explanation attached to blocklist pattern 3. -/
def rmRecursiveExplanation : String :=
  "REASON: Recursive rm commands (rm -r/-rf) can delete entire directory trees, which is destructive\nALTERNATIVE: Delete specific files individually or use \"rm <specific-file>\" to avoid accidental data loss"

/-- Explanation attached to blocklist pattern 4. -/
def rmDashRecursiveExplanation : String :=
  "REASON: Recursive rm commands can delete entire directory trees, which is destructive\nALTERNATIVE: Delete specific files individually or use \"rm <specific-file>\" to avoid accidental data loss"

/-- Explanation attached to blocklist pattern 5. -/
def findExplanation : String :=
  "REASON: Find command without -maxdepth can recursively search entire filesystems, causing excessive output\nALTERNATIVE: Use \"find <path> -name \"*.ext\" -maxdepth 2\" to limit search depth and control output size"

/-- `MicroBot._get_dangerous_command_explanation`.  A `none` input models
Python `None` (the `not isinstance(command, str)` branch behaves
identically and is not otherwise representable in a typed embedding). -/
def get_dangerous_command_explanation (command : Option String) : Option String :=
  match command with
  | none => some invalidCommandExplanation
  | some cmd =>
    if cmd = "" then some invalidCommandExplanation
    else
      let stripped := pyStrip cmd.data
      if stripped = [] then some whitespaceCommandExplanation
      else if searchLsRecursive none stripped then some lsRecursiveExplanation
      else if searchTree none stripped then some treeExplanation
      else if searchRmRecursive none stripped then some rmRecursiveExplanation
      else if searchRmDashRecursive none stripped then some rmDashRecursiveExplanation
      else if searchFindNoDepth none stripped then some findExplanation
      else none

/-- `MicroBot._is_safe_command`. -/
def is_safe_command (command : Option String) : Bool × Option String :=
  let explanation := get_dangerous_command_explanation command
  (explanation.isNone, explanation)

/-! ## LLM interface data model (`llm.py`) -/

/-- One conversation message (`{"role": ..., "content": ...}`). -/
structure Msg where
  role : String
  content : String
deriving DecidableEq, Repr

/-- `DeferredTask`: a deferred task with the context summary captured when
it was deferred. -/
structure DeferredTask where
  task : String
  summary : String
deriving DecidableEq, Repr

/-- The mutable state of an `LLMInterface` instance (fields set by
`LLMInterface.__init__` and mutated by its methods). -/
structure LLMState where
  system_prompt : String
  messages : List Msg
  deferred_tasks : List DeferredTask
  llm_reward : Nat
  retries : Nat
  max_retries : Nat
deriving DecidableEq, Repr

/-- `LLMInterface.__init__(system_prompt, max_retries=3)`. -/
def initLLMState (system_prompt : String) : LLMState :=
  { system_prompt := system_prompt
    messages := [⟨"system", system_prompt⟩]
    deferred_tasks := []
    llm_reward := 0
    retries := 0
    max_retries := 3 }

/-- `llm_output_format_str` from `llm.py`. -/
def llm_output_format_str : String :=
  "\n\x7b\n    \"task_done\": <bool>,  // Indicates if the task is completed\n    \"thoughts\": <str>,     // The reasoning behind the decision\n    \"command\": <str>     // The command to be executed\n\x7d\n"

/-- The validated `LLMAskResponse` dataclass as consumed by the
orchestrator (`task_done: bool`, `thoughts: str`, `command: str`). -/
structure LLMAskResponse where
  task_done : Bool
  thoughts : String
  command : String
deriving DecidableEq, Repr

/-! ## Context management operations (`llm.py` lines 110-309) -/

/-- The begin marker of the context region. -/
def ctxMarker : String := "__context__"

/-- The end marker of the context region. -/
def endMarker : String := "__end_context__"

/-- The neutral continuation prompt returned by `update_context` when no
recent messages remain. -/
def continuationPlaceholder : String :=
  "Context is updated as per your request.\nIf you think the current task is complete, set task_done to true. Deferred tasks (if any) will be given to you next."

/-- `msg0` of `update_context`: the system prompt taken from
`messages[0]` when its role is `system`, otherwise the stored attribute. -/
def msg0Of (st : LLMState) : String :=
  match st.messages with
  | m :: _ => if m.role = "system" then m.content else st.system_prompt
  | [] => st.system_prompt

/-- The new system prompt built by `update_context`:
`f"{system_prompt}\n\n__context__\n{combined_summary}\n__end_context__"`
where `system_prompt` is `msg0` truncated at the first `__context__`. -/
def ctx_system_prompt (msg0 summary : String) : String :=
  (if strContains msg0 ctxMarker then splitHeadS ctxMarker msg0 else msg0) ++
    "\n\n" ++ ctxMarker ++ "\n" ++ summary ++ "\n" ++ endMarker

/-- `LLMInterface.update_context(last_n_messages, summary)`.  Returns the
updated state and the string result.  Python indexes `messages[0]` and
calls `messages.pop()`, which raise on an empty list; every state the class
constructs starts with the system message, and the theorems below assume a
nonempty message list. -/
def update_context (st : LLMState) (last_n_messages : Int) (summary : String) :
    LLMState × String :=
  let msg0 := msg0Of st
  let messages1 := st.messages.dropLast
  let recent : List Msg :=
    if last_n_messages = 0 then []
    else if (messages1.length : Int) > last_n_messages * 2 then
      pySliceFrom (-(last_n_messages * 2)) messages1
    else messages1.drop 1
  let new_system_prompt := ctx_system_prompt msg0 summary
  match recent.getLast? with
  | some lastMsg =>
    ({ st with messages := ⟨"system", new_system_prompt⟩ :: recent.dropLast },
      lastMsg.content)
  | none =>
    ({ st with messages := [⟨"system", new_system_prompt⟩] },
      continuationPlaceholder)

/-- The context-region content extracted by the source:
`p.split("__end_context__")[0].split("__context__")[1]`.  Python raises
`IndexError` when the begin marker does not occur before the first end
marker; the source evaluates this only under a containment guard, and the
reachable-state invariant proved below keeps the markers ordered. -/
def region_extract (p : String) : String :=
  splitSecondS ctxMarker (splitHeadS endMarker p)

/-- The reward-line rewrite shared by `do_later` and
`complete_current_and_get_next`: when `trigger` occurs in the prompt, every
line starting with `linePrefix` is replaced by `linePrefix + " " + reward`. -/
def rewardMangle (trigger linePrefix : String) (reward : Nat) (p : String) : String :=
  if strContains p trigger then
    joinLines ((pyLines p).map (fun line =>
      if pyStartsWith line linePrefix then linePrefix ++ " " ++ toString reward else line))
  else p

/-- The system prompt built by `do_later`, before the reward rewrite. -/
def defer_prompt (base current_task : String) : String :=
  base ++ "\n" ++ ctxMarker ++ "\n<current_task>\n" ++ current_task ++
    "\n</current_task>\n" ++ endMarker

/-- `LLMInterface.do_later(current_task, deferred_task)`.  Returns the
updated state and the user message handed back to the orchestrator. -/
def do_later (st : LLMState) (current_task deferred_task : String) :
    LLMState × String :=
  let reward := st.llm_reward + 1
  let current_summary :=
    if strContains st.system_prompt ctxMarker then
      pyStripS (region_extract st.system_prompt)
    else ""
  let stack := st.deferred_tasks ++ [⟨deferred_task, current_summary⟩]
  let base := pyRstripS (splitHeadS ctxMarker st.system_prompt)
  let nsp := rewardMangle "# $$REWARD$$:" "# $$REWARD$$:" reward (defer_prompt base current_task)
  ({ st with
      system_prompt := nsp
      messages := [⟨"system", nsp⟩]
      deferred_tasks := stack
      llm_reward := reward },
    current_task)

/-- The instruction text appended after the context region by
`complete_current_and_get_next`. -/
def completeInstruction : String :=
  "\n\nBased on current state of the project, first update your context with all necessary information. Then either use `do_later` to take a sub-task or set task_done to true if all tasks are complete.\nYOU SHOULD BE VERY CAREFUL WHILE MANAGING CONTEXT FOR CURRENT TASK AND DEFERRED TASKS."

/-- The rebuilt context-region content of `complete_current_and_get_next`:
the just-completed summary marked COMPLETE, the prior conversation
transcript, and the popped task's saved summary. -/
def complete_summary (current_summary : String) (tail : List Msg)
    (deferredSummary : String) : String :=
  let completed0 :=
    if current_summary ≠ "" then current_summary ++ "\nStatus: COMPLETE"
    else "Previous sub-task: COMPLETE"
  let completed1 :=
    if tail.length > 0 then
      completed0 ++ "\n\n<conversation>\n" ++
        joinLines (tail.map (fun m => m.role ++ ": " ++ m.content)) ++
        "\n</conversation>"
    else completed0
  if deferredSummary ≠ "" then
    completed1 ++ "\n\n---\nContext from when this task was deferred:\n" ++ deferredSummary
  else completed1

/-- The system prompt built by `complete_current_and_get_next`, before the
reward rewrite. -/
def complete_prompt (base content : String) : String :=
  base ++ "\n" ++ ctxMarker ++ "\n" ++ content ++ "\n" ++ endMarker ++ completeInstruction

/-- `LLMInterface.complete_current_and_get_next()`.  Returns the updated
state and the deferred-task message (`none` when the stack is empty). -/
def complete_current_and_get_next (st : LLMState) : LLMState × Option String :=
  match st.deferred_tasks.getLast? with
  | none => (st, none)
  | some next_task =>
    let stack := st.deferred_tasks.dropLast
    let base :=
      if strContains st.system_prompt ctxMarker then
        pyRstripS (splitHeadS ctxMarker st.system_prompt)
      else st.system_prompt
    let current_summary :=
      if strContains st.system_prompt ctxMarker then
        pyStripS (region_extract st.system_prompt)
      else ""
    let content := complete_summary current_summary (st.messages.drop 1) next_task.summary
    let nsp := rewardMangle "$$REWARD$$:" "$$REWARD$$:" st.llm_reward (complete_prompt base content)
    ({ st with
        system_prompt := nsp
        messages := [⟨"system", nsp⟩]
        deferred_tasks := stack },
      some ("DEFERRED TASK (continue from where you left off):\n\n" ++ next_task.task))

/-! ## LLM response validation (`LLMInterface._validate_llm_response`)

JSON values produced by `json.loads` are modelled by `JVal`; array and
object values carry no payload because the validator only compares them
against booleans and tests their type. -/

/-- A JSON value as returned by `json.loads`. -/
inductive JVal where
  | jnull
  | jbool (b : Bool)
  | jnum (n : Int)
  | jstr (s : String)
  | jarr
  | jobj
deriving DecidableEq, Repr

/-- Python `==` between JSON values, as used by `x in [True, False]`
(only ever applied against booleans in the validator; `True == 1` and
`False == 0` hold in Python). -/
def pyEqJ : JVal → JVal → Bool
  | .jbool a, .jbool b => a = b
  | .jbool a, .jnum n => (if a then (1 : Int) else 0) = n
  | .jnum n, .jbool a => n = (if a then (1 : Int) else 0)
  | .jnum a, .jnum b => a = b
  | .jstr a, .jstr b => a = b
  | .jnull, .jnull => true
  | _, _ => false

/-- Python `x in [True, False]`. -/
def inTrueFalse (v : JVal) : Bool :=
  pyEqJ v (.jbool true) || pyEqJ v (.jbool false)

/-- A parsed JSON object (duplicate keys are not modelled; `json.loads`
keeps the last duplicate, the validator's inputs have none). -/
abbrev RespDict := List (String × JVal)

/-- `d.get(k)` on a parsed JSON object. -/
def dictGet (d : RespDict) (k : String) : Option JVal :=
  (d.find? (fun e => e.1 = k)).map (fun e => e.2)

/-- The required keys: `LLMAskResponse.__annotations__.keys()`. -/
def llm_response_keys : List String := ["task_done", "thoughts", "command"]

/-- Outcome of `json.loads` on the raw response text: a decode error or a
JSON object.  (A top-level non-object JSON value makes the Python `in`
membership test itself fail with `TypeError`; no claim concerns it.) -/
inductive JsonParse where
  | failed
  | dict (d : RespDict)

/-- The `LLMAskResponse` the validator constructs, with the raw JSON field
values (the dataclass performs no runtime type check). -/
structure LLMAskResponseRaw where
  task_done : JVal
  thoughts : JVal
  command : JVal
deriving DecidableEq, Repr

/-- Append a corrective user message and count one retry. -/
def retryBump (st : LLMState) (msg : String) : LLMState :=
  { st with retries := st.retries + 1, messages := st.messages ++ [⟨"user", msg⟩] }

/-- The fatal message raised after the retry ceiling. -/
def maxRetriesError : String :=
  "LLM is not responding in expected format. Maximum retries reached."

/-- `LLMInterface._validate_llm_response`.  `.ok (st, none)` is the
`(False, None)` retry result, `.ok (st, some r)` the `(True, r)` success,
and `.error` a raised exception: the fatal retry-ceiling `Exception`, or
the `AttributeError` from `command.strip()` when `task_done` is `True`
and `command` is a non-null non-string value. -/
def validate_llm_response (st : LLMState) (resp : JsonParse) :
    Except String (LLMState × Option LLMAskResponseRaw) :=
  if st.retries ≥ st.max_retries then
    .error maxRetriesError
  else
    match resp with
    | .failed =>
      .ok (retryBump st ("LLM_RES_ERROR: Please respond in the correct JSON format.\n" ++ llm_output_format_str), none)
    | .dict d =>
      if llm_response_keys.all (fun k => (dictGet d k).isSome) then
        if !inTrueFalse ((dictGet d "task_done").getD .jnull) then
          .ok (retryBump st ("LLM_RES_ERROR: Please ensure 'task_done' is a boolean (true/false).\n" ++ llm_output_format_str), none)
        else if dictGet d "task_done" = some (.jbool false) &&
            (match dictGet d "command" with
             | some (.jstr s) => pyStripS s = ""
             | _ => true) then
          .ok (retryBump st ("LLM_RES_ERROR: Please ensure 'command' is a non-empty string.\n" ++ llm_output_format_str), none)
        else if dictGet d "task_done" = some (.jbool true) then
          match (dictGet d "command").getD .jnull with
          | .jnull =>
            .ok (st, some ⟨(dictGet d "task_done").getD .jnull, (dictGet d "thoughts").getD .jnull, (dictGet d "command").getD .jnull⟩)
          | .jstr s =>
            if pyStripS s ≠ "" then
              .ok (retryBump st ("LLM_RES_ERROR: When 'task_done' is true, 'command' should be an empty string.\nYou should set 'task_done' to true only when even the last command got executed successfully.\nExpected output format:\n" ++ llm_output_format_str), none)
            else
              .ok (st, some ⟨(dictGet d "task_done").getD .jnull, (dictGet d "thoughts").getD .jnull, (dictGet d "command").getD .jnull⟩)
          | _ => .error "AttributeError: this value has no attribute strip"
        else
          .ok (st, some ⟨(dictGet d "task_done").getD .jnull, (dictGet d "thoughts").getD .jnull, (dictGet d "command").getD .jnull⟩)
      else
        .ok (retryBump st ("LLM_RES_ERROR: LLM response is missing required fields. Please respond in the correct JSON format.\n" ++ llm_output_format_str), none)

/-- The response-validation invariant violations that the validator answers
with a corrective retry: undecodable JSON; a missing required field; a
`task_done` that is not boolean-valued; `task_done = false` with a missing,
null, blank, or non-string command; or `task_done = true` with a non-blank
string command.  (The remaining violation — `task_done = true` with a
non-null, non-string command — is the one the code answers with an
immediate `AttributeError` instead.) -/
def ResponseViolation : JsonParse → Prop
  | .failed => True
  | .dict d =>
    (∃ k ∈ llm_response_keys, dictGet d k = none) ∨
    inTrueFalse ((dictGet d "task_done").getD .jnull) = false ∨
    (dictGet d "task_done" = some (.jbool false) ∧
      (dictGet d "command" = none ∨ dictGet d "command" = some .jnull ∨
        (∃ s, dictGet d "command" = some (.jstr s) ∧ pyStripS s = "") ∨
        (∀ s, dictGet d "command" ≠ some (.jstr s)))) ∨
    (dictGet d "task_done" = some (.jbool true) ∧
      ∃ s, dictGet d "command" = some (.jstr s) ∧ pyStripS s ≠ "")

/-- The counterexample response for C5: valid JSON, all fields present,
`task_done = true`, but a numeric `command`. -/
def numericCommandResp : JsonParse :=
  .dict [("task_done", .jbool true), ("thoughts", .jstr "x"), ("command", .jnum 5)]

/-- A concrete conversation of three user/assistant exchanges after the
system message. -/
def sevenMsgState : LLMState :=
  { initLLMState "BASE" with
      messages := [⟨"system", "BASE"⟩, ⟨"user", "u1"⟩, ⟨"assistant", "a1"⟩,
        ⟨"user", "u2"⟩, ⟨"assistant", "a2"⟩, ⟨"user", "u3"⟩, ⟨"assistant", "a3"⟩] }

/-! ## `shlex.split` (POSIX mode, `whitespace_split=True`)

Used by `MicroBot._parse_summarize_context_command` and
`_parse_do_later_command`.  The lexer is the character-at-a-time state
machine of CPython's `shlex`: outside quotes a backslash escapes the next
character, single quotes are literal until the closing quote, double quotes
allow backslash to escape only `"` and `\`; an unterminated quote or a
trailing escape raises `ValueError` (modelled as `none`). -/

/-- Lexer mode: plain scanning, pending escape, inside single quotes,
inside double quotes, pending escape inside double quotes. -/
inductive SMode where
  | scan
  | esc
  | squo
  | dquo
  | dqesc
deriving DecidableEq

/-- One pass of the `shlex` lexer; `cur` is the current token (reversed),
`none` when no token has been started. -/
def shlexRun : List Char → SMode → Option (List Char) → Option (List (List Char))
  | [], .scan, none => some []
  | [], .scan, some cur => some [cur.reverse]
  | [], _, _ => none
  | c :: rest, .scan, cur =>
    if isShlexSpace c then
      match cur with
      | none => shlexRun rest .scan none
      | some t => (shlexRun rest .scan none).map (fun ts => t.reverse :: ts)
    else if c = '\\' then shlexRun rest .esc (some (cur.getD []))
    else if c = squote then shlexRun rest .squo (some (cur.getD []))
    else if c = '"' then shlexRun rest .dquo (some (cur.getD []))
    else shlexRun rest .scan (some (c :: cur.getD []))
  | c :: rest, .esc, cur => shlexRun rest .scan (some (c :: cur.getD []))
  | c :: rest, .squo, cur =>
    if c = squote then shlexRun rest .scan cur
    else shlexRun rest .squo (some (c :: cur.getD []))
  | c :: rest, .dquo, cur =>
    if c = '"' then shlexRun rest .scan cur
    else if c = '\\' then shlexRun rest .dqesc cur
    else shlexRun rest .dquo (some (c :: cur.getD []))
  | c :: rest, .dqesc, cur =>
    if c = '"' || c = '\\' then shlexRun rest .dquo (some (c :: cur.getD []))
    else shlexRun rest .dquo (some (c :: '\\' :: cur.getD []))

/-- `shlex.split(s)`, `none` on `ValueError`. -/
def shlexSplit (s : String) : Option (List String) :=
  (shlexRun s.data .scan none).map (fun ts => ts.map String.mk)

/-! ## Orchestrator (`MicroBot.run` and its helpers) -/

/-- `MicroBot._parse_summarize_context_command`. -/
def parse_summarize_context_command (command : String) : Option (Int × String) :=
  match shlexSplit command with
  | none => none
  | some parts =>
    if parts.length < 2 || parts.length > 3 then none
    else if parts.headD "" ≠ "summarize_context" then none
    else
      match pyParseInt (parts.getD 1 "").data with
      | none => none
      | some n => some (n, parts.getD 2 "")

/-- `MicroBot._parse_do_later_command`. -/
def parse_do_later_command (command : String) : Option (String × String) :=
  match shlexSplit command with
  | none => none
  | some parts =>
    if parts.length ≠ 3 then none
    else if parts.headD "" ≠ "do_later" then none
    else
      let current_task := parts.getD 1 ""
      if current_task = "" || pyStripS current_task = "" then none
      else
        let deferred_task := parts.getD 2 ""
        if deferred_task = "" || pyStripS deferred_task = "" then none
        else some (current_task, deferred_task)

/-- `MicroBot._get_summarize_context_syntax_error`. -/
def summarize_context_syntax_error (command : String) : String :=
  "COMMAND_ERROR: Invalid summarize_context syntax.\nYour command: " ++ command ++
    "\n\nCorrect usage:\n    summarize_context <no_of_recent_turns_to_keep> \"<your summary of the context>\"\n\nExamples:\n    summarize_context 2 \"Summary of previous work: explored files and found the bug\"\n    summarize_context 0 \"\"\n    summarize_context 5 \"Completed file exploration, ready to make changes\"\n\nPlease send the command again with correct syntax."

/-- `MicroBot._get_do_later_syntax_error`. -/
def do_later_syntax_error (command : String) : String :=
  "COMMAND_ERROR: Invalid do_later syntax.\nYour command: " ++ command ++
    "\n\nCorrect usage:\n    do_later \"<current_task>\" \"<deferred_task>\"\n\nExamples:\n    do_later \"Fix the null pointer exception in auth.py\" \"After fixing auth.py, update the unit tests and documentation\"\n    do_later \"Explore the codebase structure\" \"Implement the feature after understanding the architecture\"\n    do_later \"Install required dependencies\" \"Configure the database connection and run migrations\"\n\nImportant:\n    - Both arguments must be non-empty quoted strings\n    - <current_task> is what you will work on immediately\n    - <deferred_task> is what will be given to you after completing current_task\n\nPlease send the command again with correct syntax."

/-- `CmdReturn` from `Environment.py`. -/
structure CmdReturn where
  stdout : String
  stderr : String
  return_code : Int
deriving DecidableEq, Repr

/-- `BotRunResult` from `MicroBot.py`. -/
structure BotRunResult where
  status : Bool
  result : Option String
  error : Option String
deriving DecidableEq, Repr

/-- The `f"Max iterations {max_iterations} reached"` error string. -/
def maxIterationsMsg (n : Nat) : String :=
  "Max iterations " ++ toString n ++ " reached"

/-- The `f"Timeout of {timeout} seconds reached"` error string. -/
def timeoutReachedMsg (t : Nat) : String :=
  "Timeout of " ++ toString t ++ " seconds reached"

/-- The `COMMAND_ERROR` message sent back for a safety-blocked command. -/
def command_error_msg (cmd expl : String) : String :=
  "COMMAND_ERROR: Dangerous command detected and blocked: " ++ cmd ++ "\n" ++ expl ++
    "\nPlease provide a safer alternative command."

/-- The external collaborators of one `run` invocation, per the spec's
interface boundaries: the LLM gateway (`ask` is indexed by how many `ask`
calls were made before it), the sandbox execution channel (indexed by how
many `execute` calls were made before it), the wall clock (elapsed seconds
observed at the k-th timer read), and `contentHack`, the result of the
`json.loads`/`pformat` reformatting that `run` applies to tool output
(`some formatted` when the stdout parses to a JSON object with a
`content` key, `none` otherwise). -/
structure RunOracle where
  ask : Nat → String → LLMAskResponse
  exec : Nat → String → CmdReturn
  elapsed : Nat → Nat
  contentHack : String → Option String

/-- The loop-local state of one `run` invocation, together with the call
counters that index the oracle. -/
structure RunState where
  llm : LLMState
  iteration_count : Nat
  askCount : Nat
  execCount : Nat
  timeCount : Nat
  response : LLMAskResponse
deriving Repr

/-- `llm_response = self.llm.ask(message)`: consult the gateway oracle.
The gateway's internal conversation bookkeeping is provider-specific and
behind the abstract `ask` contract; only the context-manager operations
mutate the modelled `LLMState`. -/
def doAsk (o : RunOracle) (st : RunState) (message : String) : RunState :=
  { st with response := o.ask st.askCount message, askCount := st.askCount + 1 }

/-- The turn message built from a `CmdReturn` (`output_text` in the
source). -/
def command_output_text (hack : String → Option String) (out : CmdReturn) : String :=
  if out.return_code = 0 then
    if out.stdout ≠ "" then (hack out.stdout).getD out.stdout
    else
      "Command executed successfully with no output\nreturn code: " ++ toString out.return_code ++
        "\nstdout: " ++ out.stdout ++ "\nstderr: " ++ out.stderr
  else
    "COMMAND EXECUTION FAILED\nreturn code: " ++ toString out.return_code ++
      "\nstdout: " ++ out.stdout ++ "\nstderr: " ++ out.stderr

/-- One pass of the `while llm_response.task_done is False` body of
`MicroBot.run` (lines 341-428): increment the iteration counter, check the
iteration and wall-clock budgets, then dispatch on the command: the
`summarize_context` branch, the `do_later` branch, the safety check, and
finally sandbox execution.  Returns `(some r, st)` when the loop returns
`r`, and `(none, st)` when it loops back.

The `summarize_context` parse-success branch calls
`self.llm.summarize_context(...)`, which is not defined anywhere under
`src/`; following the spec (§4.1c: apply the ContextManager operation
`updateContext` and feed its return value back to the LLM), that call is
modelled by `update_context`. -/
def runStep (o : RunOracle) (max_iterations timeout : Nat) (st : RunState) :
    Option BotRunResult × RunState :=
  let st1 := { st with iteration_count := st.iteration_count + 1 }
  if st1.iteration_count ≥ max_iterations then
    (some ⟨false, none, some (maxIterationsMsg max_iterations)⟩, st1)
  else
    let elapsed := o.elapsed st1.timeCount
    let st2 := { st1 with timeCount := st1.timeCount + 1 }
    if elapsed > timeout then
      (some ⟨false, none, some (timeoutReachedMsg timeout)⟩, st2)
    else if pyStartsWith st2.response.command "summarize_context" then
      match parse_summarize_context_command st2.response.command with
      | none => (none, doAsk o st2 (summarize_context_syntax_error st2.response.command))
      | some (n, summary) =>
        let r := update_context st2.llm n summary
        (none, doAsk o { st2 with llm := r.1 } r.2)
    else if pyStartsWith st2.response.command "do_later" then
      match parse_do_later_command st2.response.command with
      | none => (none, doAsk o st2 (do_later_syntax_error st2.response.command))
      | some (cur, defd) =>
        let r := do_later st2.llm cur defd
        (none, doAsk o { st2 with llm := r.1 } r.2)
    else
      let safety := is_safe_command (some st2.response.command)
      if safety.1 then
        let out := o.exec st2.execCount st2.response.command
        let st3 := { st2 with execCount := st2.execCount + 1 }
        (none, doAsk o st3 (command_output_text o.contentHack out))
      else
        (none, doAsk o st2 (command_error_msg st2.response.command (safety.2.getD "")))

/-- Loop exit kind: a budget failure carrying the returned result, or a
normal `task_done` exit. -/
inductive LoopExit where
  | failed (r : BotRunResult)
  | done
deriving DecidableEq, Repr

/-- Sentinel for the structurally-required fuel-exhaustion branch of
`runLoop`; `runLoop` is always called with `fuel = max_iterations`, which
the budget-exit lemma below proves sufficient, so this value is
unreachable. -/
def fuelSentinel : BotRunResult := ⟨false, none, some "model fuel exhausted"⟩

/-- The `while` loop of `MicroBot.run`.  Each pass strictly increments
`iteration_count` and the loop returns once it reaches `max_iterations`,
so `max_iterations` passes of fuel always suffice. -/
def runLoop (o : RunOracle) (mi tmo : Nat) : Nat → RunState → LoopExit × RunState
  | fuel, st =>
    if st.response.task_done then (.done, st)
    else
      match runStep o mi tmo st, fuel with
      | (some r, st'), _ => (.failed r, st')
      | (none, st'), 0 => (.failed fuelSentinel, st')
      | (none, st'), fuel' + 1 => runLoop o mi tmo fuel' st'

/-- The state at the top of one `run` invocation (`iteration_count = 1`;
the `response` placeholder is overwritten by the initial `ask`). -/
def initRunState (llm0 : LLMState) : RunState :=
  { llm := llm0, iteration_count := 1, askCount := 0, execCount := 0, timeCount := 0,
    response := ⟨false, "", ""⟩ }

/-- The body of `MicroBot.run` after argument validation: the initial
`ask(task)`, the turn loop, and on a normal exit the deferred-task pop
with a recursive `run` on the popped task.  `fuel` bounds only the
recursive deferred-task drain (which the source does not bound: each
recursion can push new deferred tasks); `none` models exceeding it and is
never produced under the budget-failure hypotheses of the theorems below. -/
def runAux (o : RunOracle) : Nat → String → Nat → Nat → RunState →
    Option (BotRunResult × RunState)
  | fuel, task, mi, tmo, st0 =>
    let st1 := doAsk o st0 task
    match runLoop o mi tmo mi st1 with
    | (.failed r, st2) => some (r, st2)
    | (.done, st2) =>
      match complete_current_and_get_next st2.llm with
      | (llm2, none) =>
        some (⟨true, some st2.response.thoughts, none⟩, { st2 with llm := llm2 })
      | (llm2, some msg) =>
        match fuel with
        | 0 => none
        | fuel' + 1 =>
          runAux o fuel' msg mi tmo { st2 with llm := llm2, iteration_count := 1 }

/-- `MicroBot.run(task, max_iterations, timeout_in_seconds)`.  The
`max_iterations <= 0` guard raises `ValueError`; tool setup and additional
mounts are environment provisioning outside the modelled core (spec §1). -/
def run (o : RunOracle) (fuel : Nat) (task : String)
    (max_iterations timeout_in_seconds : Nat) (llm0 : LLMState) :
    Except String (Option (BotRunResult × RunState)) :=
  if max_iterations = 0 then .error "max_iterations must be greater than 0"
  else .ok (runAux o fuel task max_iterations timeout_in_seconds (initRunState llm0))

/-! ## Sandbox execution (`LocalDocker.execute`)

The swe-rex runtime call, the asyncio timeout, and the interrupt delivery
are external events; one `execute` call observes exactly one `ExecEvent`
(the awaited call completes, times out, or raises).  The interrupt sent on
the timeout path is itself allowed to fail; its exception is swallowed. -/

/-- Outcome of awaiting `runtime.run_in_session` under `asyncio.wait_for`. -/
inductive ExecEvent where
  | completes (output : String) (exit_code : Int) (failure_reason : Option String)
  | timesOut
  | raises (msg : String)
deriving DecidableEq, Repr

/-- Outcome of the best-effort Ctrl-C interrupt sent after a timeout. -/
inductive InterruptEvent where
  | delivered
  | raises (msg : String)
deriving DecidableEq, Repr

/-- `LocalDocker.execute(command, timeout)`: the returned `CmdReturn` and
whether an interrupt of the stuck foreground process was attempted.  Every
event maps to a returned `CmdReturn`; no path raises. -/
def LocalDocker_execute (timeout : Nat) (ev : ExecEvent) (_intr : InterruptEvent) :
    CmdReturn × Bool :=
  match ev with
  | .completes output exit_code failure_reason =>
    (⟨output, failure_reason.getD "", exit_code⟩, false)
  | .timesOut =>
    -- the interrupt is attempted first; a raising interrupt is swallowed,
    -- so the returned value does not depend on the interrupt outcome
    (⟨"", "Command timed out after " ++ toString timeout ++ " seconds", 124⟩, true)
  | .raises msg => (⟨"", msg, 1⟩, false)

/-- A single-quote as a string. -/
def squoteS : String := String.mk [squote]

/-- The representative safe find command from the spec,
`find . -maxdepth 2 -name '*.py'`. -/
def findSafeExample : String := "find . -maxdepth 2 -name " ++ squoteS ++ "*.py" ++ squoteS

/-- A concrete deterministic oracle: the LLM always proposes the safe
non-terminal command `pwd`, commands succeed, and no wall-clock time
passes. -/
def mockOracle : RunOracle :=
  { ask := fun _ _ => ⟨false, "thinking", "pwd"⟩
    exec := fun _ _ => ⟨"ok", "", 0⟩
    elapsed := fun _ => 0
    contentHack := fun _ => none }

/-- A concrete mid-run state whose pending LLM response is the
context-management command `summarize_context` (which does not parse),
observed at iteration count 5. -/
def summarizeTurnState : RunState :=
  { llm := initLLMState "SYS"
    iteration_count := 5
    askCount := 3
    execCount := 2
    timeCount := 4
    response := ⟨false, "let me summarize", "summarize_context"⟩ }

/-! ## Context-region invariant (claim C8)

The shape every context-manager write produces: a single
`__context__ ... __end_context__` region whose surrounding text is free of
both markers, with a newline adjacent to every junction (which rules out
marker occurrences straddling a junction, since the markers contain no
newline). -/

/-- The begin marker as characters. -/
def ctxM : List Char := ctxMarker.data

/-- The end marker as characters. -/
def endM : List Char := endMarker.data

/-- Free of both context markers. -/
def mfreeL (l : List Char) : Prop :=
  containsLit ctxM l = false ∧ containsLit endM l = false

/-- Free of both context markers (string form). -/
def mfree (s : String) : Prop := mfreeL s.data

/-- Exactly one well-delimited context region: marker-free text around a
single `__context__ ... __end_context__` block, all junctions guarded by a
newline. -/
def RegionCharL (p : List Char) : Prop :=
  ∃ B C S : List Char,
    p = B ++ ctxM ++ C ++ endM ++ S ∧
    mfreeL B ∧ mfreeL C ∧ mfreeL S ∧
    B.getLast? = some '\n' ∧ C.head? = some '\n' ∧ C.getLast? = some '\n' ∧
    (S = [] ∨ S.head? = some '\n')

/-- String form of `RegionCharL`. -/
def RegionChar (p : String) : Prop := RegionCharL p.data

/-- A prompt is either still the original marker-free text (no region
written yet) or carries exactly one well-delimited region. -/
def GoodPrompt (p : String) : Prop := RegionChar p ∨ mfree p

/-- The inductive invariant over interface states: both the stored
attribute prompt and the head message's prompt are good, the head message
is the system message, all later messages are marker-free, and every
stacked deferred summary is marker-free. -/
def GoodLLM (st : LLMState) : Prop :=
  GoodPrompt st.system_prompt ∧
  (∃ h rest, st.messages = ⟨"system", h⟩ :: rest ∧ GoodPrompt h ∧
    ∀ m ∈ rest, mfree m.role ∧ mfree m.content) ∧
  (∀ d ∈ st.deferred_tasks, mfree d.summary)

/-- One context-management operation. -/
inductive CtxOp where
  | update (n : Int) (summary : String)
  | defer (current deferred : String)
  | completeNext

/-- Apply one operation to the interface state. -/
def applyOp (st : LLMState) : CtxOp → LLMState
  | .update n s => (update_context st n s).1
  | .defer a b => (do_later st a b).1
  | .completeNext => (complete_current_and_get_next st).1

/-- The marker-freedom hypothesis on operation inputs (C8 assumes
summaries and task strings do not contain the marker tokens). -/
def OpOK : CtxOp → Prop
  | .update _ s => mfree s
  | .defer a b => mfree a ∧ mfree b
  | .completeNext => True

/-! ## Generic lemmas about the string utilities -/

theorem containsLit_append_right (l y : List Char) :
    ∀ x, containsLit l y = true → containsLit l (x ++ y) = true := by
  intro x h
  induction x with
  | nil => simpa using h
  | cons c x ih =>
    simp only [List.cons_append, containsLit, Bool.or_eq_true]
    exact Or.inr ih

theorem containsLit_self_append (l y : List Char) :
    containsLit l (l ++ y) = true := by
  cases l with
  | nil =>
    cases y <;> simp [containsLit, List.isPrefixOf]
  | cons c l' =>
    simp only [List.cons_append, containsLit, Bool.or_eq_true]
    left
    rw [List.isPrefixOf_iff_prefix]
    exact (List.prefix_append (c :: l') y)

theorem containsLit_append_left (l : List Char) :
    ∀ x y, containsLit l x = true → containsLit l (x ++ y) = true := by
  intro x y h
  induction x with
  | nil =>
    cases l with
    | nil => cases y <;> simp [containsLit, List.isPrefixOf]
    | cons c l' => simp [containsLit, List.isPrefixOf] at h
  | cons c x ih =>
    simp only [containsLit, Bool.or_eq_true, List.cons_append] at h ⊢
    rcases h with h | h
    · left
      rw [List.isPrefixOf_iff_prefix] at h ⊢
      exact h.trans (List.prefix_append (c :: x) y)
    · exact Or.inr (ih h)

/-- A string built as `pre ++ mid ++ post` contains `mid`. -/
theorem strContains_middle (pre mid post : String) :
    strContains (pre ++ mid ++ post) mid = true := by
  unfold strContains
  rw [String.data_append (pre ++ mid) post, String.data_append pre mid, List.append_assoc]
  exact containsLit_append_right _ _ _ (containsLit_self_append _ _)

/-! ## Claim C7: sandbox execute timeout semantics -/

/-- C7: a command whose execution exceeds the timeout yields a returned
(not raised) `CmdReturn` with `return_code = 124`, empty stdout, and a
stderr naming the timeout, with the best-effort interrupt attempted; a
completing command's non-zero exit code is likewise returned as data, and
a transport-level exception is converted to a returned `CmdReturn` with
code 1.  The asyncio timing itself is an external event (`ExecEvent`). -/
theorem claim_C7 :
    (∀ (t : Nat) (i : InterruptEvent),
      LocalDocker_execute t .timesOut i =
        (⟨"", "Command timed out after " ++ toString t ++ " seconds", 124⟩, true) ∧
      strContains (LocalDocker_execute t .timesOut i).1.stderr "timed out" = true ∧
      strContains (LocalDocker_execute t .timesOut i).1.stderr (toString t) = true) ∧
    (∀ (t : Nat) (out : String) (code : Int) (fr : Option String) (i : InterruptEvent),
      LocalDocker_execute t (.completes out code fr) i = (⟨out, fr.getD "", code⟩, false)) ∧
    (∀ (t : Nat) (msg : String) (i : InterruptEvent),
      LocalDocker_execute t (.raises msg) i = (⟨"", msg, 1⟩, false)) := by
  refine ⟨fun t i => ⟨rfl, ?_, ?_⟩, fun _ _ _ _ _ => rfl, fun _ _ _ => rfl⟩
  · show strContains ("Command timed out after " ++ toString t ++ " seconds") "timed out" = true
    have : ("Command timed out after " : String) = "Command " ++ "timed out" ++ " after " := by decide
    rw [this]
    unfold strContains
    rw [String.data_append ("Command " ++ "timed out" ++ " after " ++ toString t) " seconds",
      String.data_append ("Command " ++ "timed out" ++ " after ") (toString t),
      String.data_append ("Command " ++ "timed out") " after ",
      String.data_append "Command " "timed out"]
    rw [List.append_assoc, List.append_assoc, List.append_assoc]
    exact containsLit_append_right _ _ _
      (containsLit_append_left _ _ _ (containsLit_self_append _ _))
  · show strContains ("Command timed out after " ++ toString t ++ " seconds") (toString t) = true
    exact strContains_middle _ _ _

/-! ## Claim C3: the deferred-task stack is LIFO -/

/-- C3: from any interface state, `do_later(A, B)` pushes one entry whose
task is `B`; an immediate `complete_current_and_get_next` returns a
non-null message containing `B` and shrinks the stack by exactly one;
after two nested defers the pops return `B2` then `B1`; and a pop from an
empty stack returns `none`. -/
theorem claim_C3 :
    (∀ (st : LLMState) (A B : String),
      ∃ summary,
        (do_later st A B).1.deferred_tasks = st.deferred_tasks ++ [⟨B, summary⟩] ∧
        (∃ msg,
          (complete_current_and_get_next (do_later st A B).1).2 = some msg ∧
          strContains msg B = true ∧
          (complete_current_and_get_next (do_later st A B).1).1.deferred_tasks.length + 1 =
            (do_later st A B).1.deferred_tasks.length ∧
          (complete_current_and_get_next (do_later st A B).1).1.deferred_tasks =
            st.deferred_tasks)) ∧
    (∀ (st : LLMState) (A1 B1 A2 B2 : String),
      ∃ msg1 msg2,
        (complete_current_and_get_next (do_later (do_later st A1 B1).1 A2 B2).1).2 = some msg1 ∧
        strContains msg1 B2 = true ∧
        (complete_current_and_get_next
          (complete_current_and_get_next (do_later (do_later st A1 B1).1 A2 B2).1).1).2 = some msg2 ∧
        strContains msg2 B1 = true) ∧
    (∀ st : LLMState, st.deferred_tasks = [] →
      (complete_current_and_get_next st).2 = none ∧
      (complete_current_and_get_next st).1 = st) := by
  have hpush : ∀ (st : LLMState) (A B : String),
      (do_later st A B).1.deferred_tasks =
        st.deferred_tasks ++
          [⟨B, if strContains st.system_prompt ctxMarker then
              pyStripS (region_extract st.system_prompt) else ""⟩] ∧
      (do_later st A B).1.llm_reward = st.llm_reward + 1 := by
    intro st A B
    simp [do_later]
  have hpop : ∀ (st : LLMState) (d : DeferredTask) (ds : List DeferredTask),
      st.deferred_tasks = ds ++ [d] →
      (complete_current_and_get_next st).2 =
        some ("DEFERRED TASK (continue from where you left off):\n\n" ++ d.task) ∧
      (complete_current_and_get_next st).1.deferred_tasks = ds := by
    intro st d ds h
    unfold complete_current_and_get_next
    rw [h]
    simp
  have hmsg : ∀ taskStr : String,
      strContains ("DEFERRED TASK (continue from where you left off):\n\n" ++ taskStr) taskStr = true := by
    intro taskStr
    unfold strContains
    rw [String.data_append]
    have h := containsLit_self_append taskStr.data []
    rw [List.append_nil] at h
    exact containsLit_append_right _ _ _ h
  refine ⟨fun st A B => ⟨_, (hpush st A B).1, ?_⟩, fun st A1 B1 A2 B2 => ?_, fun st h => ?_⟩
  · obtain ⟨h2, h3⟩ := hpop (do_later st A B).1 _ st.deferred_tasks (hpush st A B).1
    refine ⟨_, h2, hmsg B, ?_, h3⟩
    rw [h3, (hpush st A B).1]
    simp
  · obtain ⟨h2, h3⟩ := hpop (do_later (do_later st A1 B1).1 A2 B2).1 _ _
      (hpush (do_later st A1 B1).1 A2 B2).1
    have hst : (complete_current_and_get_next (do_later (do_later st A1 B1).1 A2 B2).1).1.deferred_tasks =
        st.deferred_tasks ++
          [⟨B1, if strContains st.system_prompt ctxMarker then
              pyStripS (region_extract st.system_prompt) else ""⟩] := by
      rw [h3, (hpush st A1 B1).1]
    obtain ⟨h4, h5⟩ := hpop _ _ _ hst
    exact ⟨_, _, h2, hmsg B2, h4, hmsg B1⟩
  · unfold complete_current_and_get_next
    rw [h]
    simp

/-- Witness for C3: the empty-stack clause evaluated at a fresh state. -/
theorem claim_C3_witness :
    (initLLMState "SYS").deferred_tasks = [] ∧
    (complete_current_and_get_next (initLLMState "SYS")).2 = none := by
  refine ⟨rfl, (claim_C3.2.2 (initLLMState "SYS") rfl).1⟩

/-! ## Claim C4: the command safety validator -/

/-- Unfolding of `get_dangerous_command_explanation` on a non-empty,
non-whitespace command. -/
theorem get_dangerous_some_eq (cmd : String) (h0 : ¬cmd = "") (h1 : ¬pyStrip cmd.data = []) :
    get_dangerous_command_explanation (some cmd) =
      (if searchLsRecursive none (pyStrip cmd.data) then some lsRecursiveExplanation
       else if searchTree none (pyStrip cmd.data) then some treeExplanation
       else if searchRmRecursive none (pyStrip cmd.data) then some rmRecursiveExplanation
       else if searchRmDashRecursive none (pyStrip cmd.data) then some rmDashRecursiveExplanation
       else if searchFindNoDepth none (pyStrip cmd.data) then some findExplanation
       else none) := by
  simp only [get_dangerous_command_explanation, if_neg h0, if_neg h1]

/-- Any command whose stripped text is matched by one of the five
blocklist matchers is rejected with an explanation carrying both a
REASON and an ALTERNATIVE. -/
theorem unsafe_of_matcher (cmd : String)
    (h : searchLsRecursive none (pyStrip cmd.data) = true ∨
      searchTree none (pyStrip cmd.data) = true ∨
      searchRmRecursive none (pyStrip cmd.data) = true ∨
      searchRmDashRecursive none (pyStrip cmd.data) = true ∨
      searchFindNoDepth none (pyStrip cmd.data) = true) :
    ∃ e, is_safe_command (some cmd) = (false, some e) ∧
      strContains e "REASON:" = true ∧ strContains e "ALTERNATIVE:" = true := by
  by_cases h0 : cmd = ""
  · rw [h0] at h
    exact absurd h (by decide)
  · by_cases h1 : pyStrip cmd.data = []
    · rw [h1] at h
      exact absurd h (by decide)
    · unfold is_safe_command
      rw [get_dangerous_some_eq cmd h0 h1]
      by_cases e1 : searchLsRecursive none (pyStrip cmd.data) = true
      · rw [if_pos e1]
        exact ⟨lsRecursiveExplanation, rfl, by decide, by decide⟩
      · rw [if_neg e1]
        by_cases e2 : searchTree none (pyStrip cmd.data) = true
        · rw [if_pos e2]
          exact ⟨treeExplanation, rfl, by decide, by decide⟩
        · rw [if_neg e2]
          by_cases e3 : searchRmRecursive none (pyStrip cmd.data) = true
          · rw [if_pos e3]
            exact ⟨rmRecursiveExplanation, rfl, by decide, by decide⟩
          · rw [if_neg e3]
            by_cases e4 : searchRmDashRecursive none (pyStrip cmd.data) = true
            · rw [if_pos e4]
              exact ⟨rmDashRecursiveExplanation, rfl, by decide, by decide⟩
            · rw [if_neg e4]
              by_cases e5 : searchFindNoDepth none (pyStrip cmd.data) = true
              · rw [if_pos e5]
                exact ⟨findExplanation, rfl, by decide, by decide⟩
              · exact absurd h (by simp [e1, e2, e3, e4, e5])

set_option maxRecDepth 8000 in
/-- C4: every command matched by one of the five blocklist patterns is
rejected with an explanation holding both a reason and an alternative;
`None` and whitespace-only commands are rejected with an explanation; and
the representative commands behave as specified: `ls -R`, `tree`,
`rm -rf x`, `rm --recursive`, and `find / -name x` are unsafe while
`ls -la`, `pwd`, and `find . -maxdepth 2 -name '*.py'` are safe. -/
theorem claim_C4 :
    (∀ cmd : String,
      (searchLsRecursive none (pyStrip cmd.data) = true ∨
       searchTree none (pyStrip cmd.data) = true ∨
       searchRmRecursive none (pyStrip cmd.data) = true ∨
       searchRmDashRecursive none (pyStrip cmd.data) = true ∨
       searchFindNoDepth none (pyStrip cmd.data) = true) →
      ∃ e, is_safe_command (some cmd) = (false, some e) ∧
        strContains e "REASON:" = true ∧ strContains e "ALTERNATIVE:" = true) ∧
    is_safe_command none = (false, some invalidCommandExplanation) ∧
    is_safe_command (some "") = (false, some invalidCommandExplanation) ∧
    (∀ cmd : String, cmd ≠ "" → pyStrip cmd.data = [] →
      is_safe_command (some cmd) = (false, some whitespaceCommandExplanation)) ∧
    is_safe_command (some "ls -R") = (false, some lsRecursiveExplanation) ∧
    is_safe_command (some "tree") = (false, some treeExplanation) ∧
    is_safe_command (some "rm -rf x") = (false, some rmRecursiveExplanation) ∧
    is_safe_command (some "rm --recursive") = (false, some rmDashRecursiveExplanation) ∧
    is_safe_command (some "find / -name x") = (false, some findExplanation) ∧
    is_safe_command (some "ls -la") = (true, none) ∧
    is_safe_command (some "pwd") = (true, none) ∧
    is_safe_command (some findSafeExample) = (true, none) := by
  refine ⟨unsafe_of_matcher, by decide, by decide, ?_, by decide, by decide, by decide,
    by decide, by decide, by decide, by decide, by decide⟩
  intro cmd h0 h1
  unfold is_safe_command
  have h2 : get_dangerous_command_explanation (some cmd) = some whitespaceCommandExplanation := by
    simp only [get_dangerous_command_explanation, if_neg h0, if_pos h1]
  rw [h2]
  rfl

set_option maxRecDepth 8000 in
/-- Witness for C4: the universal rejection clause applied to `ls -R`
(matched by the recursive-ls pattern) and the whitespace clause applied to
a blank command. -/
theorem claim_C4_witness :
    (∃ e, is_safe_command (some "ls -R") = (false, some e) ∧
      strContains e "REASON:" = true ∧ strContains e "ALTERNATIVE:" = true) ∧
    is_safe_command (some "   ") = (false, some whitespaceCommandExplanation) := by
  exact ⟨claim_C4.1 "ls -R" (Or.inl (by decide)),
    claim_C4.2.2.2.1 "   " (by decide) (by decide)⟩

/-! ## Structural lemmas about one orchestrator turn -/

theorem update_context_deferred (st : LLMState) (n : Int) (s : String) :
    (update_context st n s).1.deferred_tasks = st.deferred_tasks := by
  unfold update_context
  dsimp only
  split <;> rfl

theorem do_later_deferred (st : LLMState) (a b : String) :
    st.deferred_tasks <+: (do_later st a b).1.deferred_tasks := by
  unfold do_later
  dsimp only
  exact ⟨_, rfl⟩

theorem runStep_iter (o : RunOracle) (mi tmo : Nat) (st : RunState) :
    (runStep o mi tmo st).2.iteration_count = st.iteration_count + 1 := by
  unfold runStep doAsk
  dsimp only
  split_ifs <;> (repeat' split) <;> rfl

theorem runStep_exec_le (o : RunOracle) (mi tmo : Nat) (st : RunState) :
    (runStep o mi tmo st).2.execCount ≤ st.execCount + 1 := by
  unfold runStep doAsk
  dsimp only
  split_ifs <;> (repeat' split) <;> simp

theorem runStep_exit (o : RunOracle) (mi tmo : Nat) (st : RunState) (r : BotRunResult)
    (h : (runStep o mi tmo st).1 = some r) :
    (r = ⟨false, none, some (maxIterationsMsg mi)⟩ ∨
      r = ⟨false, none, some (timeoutReachedMsg tmo)⟩) ∧
    (runStep o mi tmo st).2.execCount = st.execCount := by
  unfold runStep doAsk at h ⊢
  dsimp only at h ⊢
  split_ifs at h ⊢ <;> (repeat' split at h) <;> (repeat' split) <;>
    simp_all

theorem runStep_continue_lt (o : RunOracle) (mi tmo : Nat) (st : RunState)
    (h : (runStep o mi tmo st).1 = none) :
    st.iteration_count + 1 < mi := by
  unfold runStep doAsk at h
  dsimp only at h
  split_ifs at h with h1 h2 <;> (repeat' split at h) <;> simp_all <;> omega

theorem runStep_continue_ask (o : RunOracle) (mi tmo : Nat) (st : RunState)
    (h : (runStep o mi tmo st).1 = none) :
    ∃ k m, (runStep o mi tmo st).2.response = o.ask k m := by
  unfold runStep doAsk at h ⊢
  dsimp only at h ⊢
  split_ifs at h ⊢ <;> (repeat' split at h) <;> (repeat' split) <;>
    simp_all <;> exact ⟨_, _, rfl⟩

theorem runStep_stack (o : RunOracle) (mi tmo : Nat) (st : RunState) :
    st.llm.deferred_tasks <+: (runStep o mi tmo st).2.llm.deferred_tasks := by
  unfold runStep doAsk
  dsimp only
  split_ifs <;> (repeat' split) <;>
    simp_all [update_context_deferred] <;>
    first
      | exact List.prefix_refl _
      | exact do_later_deferred _ _ _

theorem runStep_max (o : RunOracle) (mi tmo : Nat) (st : RunState)
    (h : mi ≤ st.iteration_count + 1) :
    (runStep o mi tmo st).1 = some ⟨false, none, some (maxIterationsMsg mi)⟩ := by
  unfold runStep
  dsimp only
  rw [if_pos h]

/-- Budget-exhaustion behavior of the turn loop: with an LLM that never
sets `task_done` and enough fuel, the loop always returns a failure whose
error is the max-iterations or the timeout message, never pops the
deferred stack (it can only grow by `do_later` pushes), executes at most
`max_iterations - iteration_count - 1` further sandbox commands, and
fails with the max-iterations error whenever the bound is already
reached at entry. -/
theorem runLoop_budget (o : RunOracle) (mi tmo : Nat)
    (hAsk : ∀ k m, (o.ask k m).task_done = false) :
    ∀ (fuel : Nat) (st : RunState), st.response.task_done = false →
      mi ≤ fuel + st.iteration_count →
      ∃ r st',
        runLoop o mi tmo fuel st = (.failed r, st') ∧
        (r = ⟨false, none, some (maxIterationsMsg mi)⟩ ∨
          r = ⟨false, none, some (timeoutReachedMsg tmo)⟩) ∧
        st.llm.deferred_tasks <+: st'.llm.deferred_tasks ∧
        st'.execCount ≤ st.execCount + (mi - st.iteration_count - 1) ∧
        (mi ≤ st.iteration_count + 1 → r = ⟨false, none, some (maxIterationsMsg mi)⟩) := by
  intro fuel
  induction fuel with
  | zero =>
    intro st hTd hMi
    have hmax := runStep_max o mi tmo st (by omega)
    rcases hr : runStep o mi tmo st with ⟨r?, st1⟩
    rw [hr] at hmax
    simp only at hmax
    subst hmax
    obtain ⟨_, hexec⟩ := runStep_exit o mi tmo st _ (by rw [hr])
    rw [hr] at hexec
    refine ⟨_, st1, ?_, Or.inl rfl, ?_, ?_, fun _ => rfl⟩
    · unfold runLoop
      rw [if_neg (by simp [hTd]), hr]
    · have := runStep_stack o mi tmo st
      rwa [hr] at this
    · simp only at hexec
      omega
  | succ fuel ih =>
    intro st hTd hMi
    rcases hr : runStep o mi tmo st with ⟨r?, st1⟩
    cases r? with
    | some r =>
      obtain ⟨hcase, hexec⟩ := runStep_exit o mi tmo st r (by rw [hr])
      rw [hr] at hexec
      simp only at hexec
      have hstack := runStep_stack o mi tmo st
      rw [hr] at hstack
      refine ⟨r, st1, ?_, hcase, hstack, by omega, fun hle => ?_⟩
      · unfold runLoop
        rw [if_neg (by simp [hTd]), hr]
      · have := runStep_max o mi tmo st hle
        rw [hr] at this
        simp only at this
        simpa using this
    | none =>
      have hlt := runStep_continue_lt o mi tmo st (by rw [hr])
      obtain ⟨k, m, hresp⟩ := runStep_continue_ask o mi tmo st (by rw [hr])
      rw [hr] at hresp
      have hiter := runStep_iter o mi tmo st
      rw [hr] at hiter
      simp only at hiter hresp
      have hexec1 := runStep_exec_le o mi tmo st
      rw [hr] at hexec1
      simp only at hexec1
      obtain ⟨r, st', hloop, hcase, hstack, hexec, _⟩ :=
        ih st1 (by rw [hresp]; exact hAsk k m) (by omega)
      have hstack0 := runStep_stack o mi tmo st
      rw [hr] at hstack0
      refine ⟨r, st', ?_, hcase, hstack0.trans hstack, by omega, fun hle => by omega⟩
      unfold runLoop
      rw [if_neg (by simp [hTd]), hr]
      exact hloop

/-- The two budget error strings are never equal (their first characters
differ). -/
theorem maxMsg_ne_timeoutMsg (n t : Nat) : maxIterationsMsg n ≠ timeoutReachedMsg t := by
  intro h
  have h2 : (maxIterationsMsg n).data = (timeoutReachedMsg t).data := congrArg String.data h
  unfold maxIterationsMsg timeoutReachedMsg at h2
  rw [String.data_append, String.data_append, String.data_append, String.data_append] at h2
  have hM : ("Max iterations " : String).data = 'M' :: "ax iterations ".data := rfl
  have hT : ("Timeout of " : String).data = 'T' :: "imeout of ".data := rfl
  rw [hM, hT] at h2
  simp at h2

/-! ## Claim C1: iteration counting on context-management and blocked turns -/

set_option maxRecDepth 8000 in
/-- C1 counterexample: a turn whose command is the context-management
command `summarize_context` increments the iteration counter.  At a
concrete state entered with `iteration_count = 5`, the turn loops back
(no loop exit) with `iteration_count = 6`, not 5, refuting "the iteration
count observed at the next loop entry equals the count at this turn's
entry"; the sandbox is indeed not called on the turn. -/
theorem claim_C1_counterexample :
    summarizeTurnState.iteration_count = 5 ∧
    summarizeTurnState.response.command = "summarize_context" ∧
    (runStep mockOracle 100 200 summarizeTurnState).1 = none ∧
    (runStep mockOracle 100 200 summarizeTurnState).2.iteration_count = 6 ∧
    (runStep mockOracle 100 200 summarizeTurnState).2.execCount =
      summarizeTurnState.execCount := by
  refine ⟨rfl, rfl, by decide, by decide, by decide⟩

/-- C1 (amended): on every turn whose command is a context-management
command (`summarize_context` or `do_later`, whether it parses or not) or
a command rejected by the safety validator, the sandbox is not called,
and the iteration counter is incremented by exactly one, exactly as on an
executed turn. -/
theorem claim_C1 (o : RunOracle) (mi tmo : Nat) (st : RunState)
    (h : pyStartsWith st.response.command "summarize_context" = true ∨
         pyStartsWith st.response.command "do_later" = true ∨
         (is_safe_command (some st.response.command)).1 = false) :
    (runStep o mi tmo st).2.execCount = st.execCount ∧
    (runStep o mi tmo st).2.iteration_count = st.iteration_count + 1 := by
  refine ⟨?_, runStep_iter o mi tmo st⟩
  unfold runStep doAsk
  dsimp only
  split_ifs with h1 h2 h3 h4 h5
  · rfl
  · rfl
  · split <;> rfl
  · split <;> rfl
  · exfalso
    rcases h with h | h | h
    · exact h3 h
    · exact h4 h
    · rw [h5] at h
      cases h
  · rfl

set_option maxRecDepth 8000 in
/-- Witness for C1 (amended) at the concrete `summarize_context` turn. -/
theorem claim_C1_witness :
    (runStep mockOracle 100 200 summarizeTurnState).2.execCount =
      summarizeTurnState.execCount ∧
    (runStep mockOracle 100 200 summarizeTurnState).2.iteration_count =
      summarizeTurnState.iteration_count + 1 :=
  claim_C1 mockOracle 100 200 summarizeTurnState (Or.inl (by decide))

/-! ## Claim C2: budget exhaustion yields a failure naming the bound -/

/-- C2: whenever the LLM keeps returning `task_done = false`, `run`
returns `status = false`, `result = null`, and an error that is the
max-iterations or the timeout message (each containing its configured
bound); with `max_iterations = 1` the error is exactly
`"Max iterations 1 reached"`; and the deferred stack is never popped on
this failure path (the initial stack is a prefix of the final one). -/
theorem claim_C2 (o : RunOracle) (fuel : Nat) (task : String) (mi tmo : Nat)
    (llm0 : LLMState) (hmi : 1 ≤ mi)
    (hAsk : ∀ k m, (o.ask k m).task_done = false) :
    ∃ err stF,
      run o fuel task mi tmo llm0 = .ok (some (⟨false, none, some err⟩, stF)) ∧
      (err = maxIterationsMsg mi ∨ err = timeoutReachedMsg tmo) ∧
      ((toString mi).data <:+: err.data ∨ (toString tmo).data <:+: err.data) ∧
      (mi = 1 → err = "Max iterations 1 reached") ∧
      llm0.deferred_tasks <+: stF.llm.deferred_tasks := by
  have hst1 : (doAsk o (initRunState llm0) task).response.task_done = false := hAsk 0 task
  obtain ⟨r, st', hloop, hcase, hstack, _, hfirst⟩ :=
    runLoop_budget o mi tmo hAsk mi (doAsk o (initRunState llm0) task) hst1 (by simp [doAsk, initRunState])
  have hrun : run o fuel task mi tmo llm0 = .ok (some (r, st')) := by
    unfold run runAux
    rw [if_neg (by omega)]
    dsimp only
    rw [hloop]
  rcases hcase with hc | hc <;> subst hc
  · refine ⟨maxIterationsMsg mi, st', hrun, Or.inl rfl, Or.inl ?_, fun h1 => ?_, hstack⟩
    · refine ⟨"Max iterations ".data, " reached".data, ?_⟩
      rw [← String.data_append "Max iterations " (toString mi),
        ← String.data_append ("Max iterations " ++ toString mi) " reached"]
      rfl
    · subst h1
      decide
  · refine ⟨timeoutReachedMsg tmo, st', hrun, Or.inr rfl, Or.inr ?_, fun h1 => ?_, hstack⟩
    · refine ⟨"Timeout of ".data, " seconds reached".data, ?_⟩
      rw [← String.data_append "Timeout of " (toString tmo),
        ← String.data_append ("Timeout of " ++ toString tmo) " seconds reached"]
      rfl
    · subst h1
      have h3 := hfirst (by simp [doAsk, initRunState])
      have h4 : some (timeoutReachedMsg tmo) = some (maxIterationsMsg 1) :=
        congrArg BotRunResult.error h3
      exact absurd (Option.some_inj.mp h4).symm (maxMsg_ne_timeoutMsg 1 tmo)

/-- Witness for C2: the mock oracle (safe non-terminal commands) with
`max_iterations = 1` on the task `"list files"`. -/
theorem claim_C2_witness :
    (1 : Nat) ≤ 1 ∧
    ∃ err stF,
      run mockOracle 5 "list files" 1 200 (initLLMState "SYS") =
        .ok (some (⟨false, none, some err⟩, stF)) ∧
      (err = maxIterationsMsg 1 ∨ err = timeoutReachedMsg 200) ∧
      ((toString 1).data <:+: err.data ∨ (toString 200).data <:+: err.data) ∧
      (1 = 1 → err = "Max iterations 1 reached") ∧
      (initLLMState "SYS").deferred_tasks <+: stF.llm.deferred_tasks :=
  ⟨le_refl 1,
    claim_C2 mockOracle 5 "list files" 1 200 (initLLMState "SYS") (le_refl 1)
      (fun _ _ => rfl)⟩

/-! ## Claim C9: sandbox-command budget implied by the counter placement -/

/-- C9: since the counter starts at 1 and is incremented before the bound
check, a `run` whose LLM never sets `task_done` executes at most
`max_iterations - 2` sandbox commands, and with `max_iterations` equal to
1 or 2 it fails with the max-iterations error before any sandbox call. -/
theorem claim_C9 (o : RunOracle) (fuel : Nat) (task : String) (mi tmo : Nat)
    (llm0 : LLMState) (hmi : 1 ≤ mi)
    (hAsk : ∀ k m, (o.ask k m).task_done = false) :
    ∃ r stF,
      run o fuel task mi tmo llm0 = .ok (some (r, stF)) ∧
      stF.execCount ≤ mi - 2 ∧
      (mi = 1 ∨ mi = 2 →
        r.error = some (maxIterationsMsg mi) ∧ stF.execCount = 0) := by
  have hst1 : (doAsk o (initRunState llm0) task).response.task_done = false := hAsk 0 task
  obtain ⟨r, st', hloop, _, _, hexec, hfirst⟩ :=
    runLoop_budget o mi tmo hAsk mi (doAsk o (initRunState llm0) task) hst1 (by simp [doAsk, initRunState])
  have hrun : run o fuel task mi tmo llm0 = .ok (some (r, st')) := by
    unfold run runAux
    rw [if_neg (by omega)]
    dsimp only
    rw [hloop]
  have hexec' : st'.execCount ≤ mi - 2 := by
    have h0 : (doAsk o (initRunState llm0) task).execCount = 0 := rfl
    have h1 : (doAsk o (initRunState llm0) task).iteration_count = 1 := rfl
    rw [h0, h1] at hexec
    omega
  refine ⟨r, st', hrun, hexec', fun h12 => ?_⟩
  have hr := hfirst (by simp [doAsk, initRunState]; omega)
  subst hr
  exact ⟨rfl, by omega⟩

/-! ## Claim C5: LLM response validation -/

/-- C5 counterexample: at a fresh state (`retries = 0 < 3 = max_retries`)
the response `{"task_done": true, "thoughts": "x", "command": 5}` violates
the command-must-be-empty invariant, yet the validator raises immediately
(`command.strip()` on an int, `AttributeError`) instead of issuing a
corrective retry, so a fatal exception occurs before the retry count
reaches the `max_retries` ceiling. -/
theorem claim_C5_counterexample :
    (initLLMState "S").retries = 0 ∧
    (initLLMState "S").retries < (initLLMState "S").max_retries ∧
    validate_llm_response (initLLMState "S") numericCommandResp =
      .error "AttributeError: this value has no attribute strip" := by
  refine ⟨rfl, by decide, rfl⟩

/-- C5 (amended): below the retry ceiling, every violation of the
response invariant other than a non-null non-string command with
`task_done = true` is answered with a corrective `LLM_RES_ERROR` retry
message (appended to the conversation, retry count incremented) rather
than an exception; once `retries` reaches `max_retries`, any response
raises the fatal exception; and every validated response satisfies the
invariant: `task_done = false` implies a non-blank string command, and
`task_done = true` implies a null or blank command. -/
theorem claim_C5 :
    (∀ (st : LLMState) (resp : JsonParse), st.retries < st.max_retries →
      ResponseViolation resp →
      ∃ m, validate_llm_response st resp = .ok (retryBump st m, none) ∧
        strContains m "LLM_RES_ERROR" = true ∧
        (retryBump st m).retries = st.retries + 1 ∧
        (retryBump st m).messages = st.messages ++ [⟨"user", m⟩]) ∧
    (∀ (st : LLMState) (resp : JsonParse), st.max_retries ≤ st.retries →
      validate_llm_response st resp = .error maxRetriesError) ∧
    (∀ (st : LLMState) (d : RespDict) (st' : LLMState) (raw : LLMAskResponseRaw),
      validate_llm_response st (.dict d) = .ok (st', some raw) →
      (raw.task_done = .jbool false → ∃ s, raw.command = .jstr s ∧ pyStripS s ≠ "") ∧
      (raw.task_done = .jbool true →
        raw.command = .jnull ∨ ∃ s, raw.command = .jstr s ∧ pyStripS s = "")) := by
  refine ⟨?_, ?_, ?_⟩
  · intro st resp hlt hv
    unfold validate_llm_response
    rw [if_neg (by omega)]
    cases resp with
    | failed => exact ⟨_, rfl, by decide, rfl, rfl⟩
    | dict d =>
      by_cases hk : llm_response_keys.all (fun k => (dictGet d k).isSome) = true
      · simp only [hk, if_true]
        have hnomiss : ¬ ∃ k ∈ llm_response_keys, dictGet d k = none := by
          rintro ⟨k, hkmem, hknone⟩
          rw [List.all_eq_true] at hk
          have := hk k hkmem
          rw [hknone] at this
          simp at this
        by_cases hb : inTrueFalse ((dictGet d "task_done").getD .jnull) = true
        · simp only [hb, Bool.not_true, Bool.false_eq_true, if_false]
          rcases hv with hv | hv | hv | hv
          · exact absurd hv hnomiss
          · rw [hb] at hv; cases hv
          · -- task_done is False with an invalid command: the second check fires
            have hcond : (dictGet d "task_done" = some (.jbool false) &&
                (match dictGet d "command" with
                 | some (.jstr s) => pyStripS s = ""
                 | _ => true) : Bool) = true := by
              rcases hv with ⟨htd, hc⟩
              rw [htd]
              simp only [Bool.and_eq_true, decide_eq_true_eq]
              refine ⟨by simp, ?_⟩
              rcases hc with hc | hc | ⟨s, hc, hs⟩ | hc
              · rw [hc]
              · rw [hc]
              · rw [hc]; simpa using hs
              · rcases hcc : dictGet d "command" with _ | v
                · rfl
                · cases v
                  · rfl
                  · rfl
                  · rfl
                  · exact absurd hcc (hc _)
                  · rfl
                  · rfl
            rw [if_pos hcond]
            exact ⟨_, rfl, by decide, rfl, rfl⟩
          · -- task_done is True with a non-blank string command
            rcases hv with ⟨htd, s, hc, hs⟩
            have hcond : ¬ (dictGet d "task_done" = some (.jbool false) &&
                (match dictGet d "command" with
                 | some (.jstr s) => pyStripS s = ""
                 | _ => true) : Bool) = true := by
              rw [htd]
              simp
            rw [if_neg hcond, if_pos (by rw [htd])]
            rw [hc]
            simp only [Option.getD_some]
            rw [if_pos (by simpa using hs)]
            exact ⟨_, rfl, by decide, rfl, rfl⟩
        · simp only [Bool.not_eq_true] at hb
          simp only [hb, Bool.not_false, if_true]
          exact ⟨_, rfl, by decide, rfl, rfl⟩
      · simp only [hk, if_false]
        exact ⟨_, rfl, by decide, rfl, rfl⟩
  · intro st resp hge
    unfold validate_llm_response
    rw [if_pos (by omega)]
  · intro st d st' raw hok
    unfold validate_llm_response at hok
    by_cases hge : st.retries ≥ st.max_retries
    · rw [if_pos hge] at hok; cases hok
    · rw [if_neg hge] at hok
      by_cases hk : llm_response_keys.all (fun k => (dictGet d k).isSome) = true
      · simp only [hk, if_true] at hok
        by_cases hb : inTrueFalse ((dictGet d "task_done").getD .jnull) = true
        · simp only [hb, Bool.not_true, Bool.false_eq_true, if_false] at hok
          by_cases hc1 : (dictGet d "task_done" = some (.jbool false) &&
              (match dictGet d "command" with
               | some (.jstr s) => pyStripS s = ""
               | _ => true) : Bool) = true
          · rw [if_pos hc1] at hok; cases hok
          · rw [if_neg hc1] at hok
            by_cases hc2 : dictGet d "task_done" = some (.jbool true)
            · rw [if_pos hc2] at hok
              rcases hcc : (dictGet d "command").getD .jnull with _ | b | n | s | _ | _ <;>
                rw [hcc] at hok <;> dsimp only at hok
              · -- command is null: success with a null command
                injection hok with hok
                injection hok with _ hok
                injection hok with hok
                subst hok
                refine ⟨fun hf => ?_, fun _ => Or.inl rfl⟩
                exfalso
                have hf2 : (dictGet d "task_done").getD .jnull = .jbool false := hf
                rw [hc2] at hf2
                simp at hf2
              · cases hok
              · cases hok
              · -- command is a string: retry when non-blank, success when blank
                by_cases hs : pyStripS s ≠ ""
                · rw [if_pos hs] at hok; cases hok
                · rw [if_neg hs] at hok
                  injection hok with hok
                  injection hok with _ hok
                  injection hok with hok
                  subst hok
                  simp only [ne_eq, Decidable.not_not] at hs
                  refine ⟨fun hf => ?_, fun _ => Or.inr ⟨s, rfl, hs⟩⟩
                  exfalso
                  have hf2 : (dictGet d "task_done").getD .jnull = .jbool false := hf
                  rw [hc2] at hf2
                  simp at hf2
              · cases hok
              · cases hok
            · rw [if_neg hc2] at hok
              injection hok with hok
              injection hok with _ hok
              injection hok with hok
              subst hok
              constructor
              · intro hf
                have hf2 : (dictGet d "task_done").getD .jnull = .jbool false := hf
                have htd : dictGet d "task_done" = some (.jbool false) := by
                  rcases htd0 : dictGet d "task_done" with _ | v
                  · rw [htd0] at hf2; cases hf2
                  · rw [htd0] at hf2
                    simp only [Option.getD_some] at hf2
                    rw [hf2]
                have hcmd : (match dictGet d "command" with
                    | some (.jstr s) => pyStripS s = ""
                    | _ => true : Bool) = false := by
                  by_contra hcmd
                  simp only [Bool.not_eq_false] at hcmd
                  exact hc1 (by rw [htd, hcmd]; rfl)
                rcases hcc : dictGet d "command" with _ | v
                · rw [hcc] at hcmd; cases hcmd
                · rw [hcc] at hcmd
                  cases v with
                  | jstr s =>
                    simp only [decide_eq_false_iff_not] at hcmd
                    exact ⟨s, rfl, hcmd⟩
                  | jnull => cases hcmd
                  | jbool b => cases hcmd
                  | jnum n => cases hcmd
                  | jarr => cases hcmd
                  | jobj => cases hcmd
              · intro hf
                exfalso
                apply hc2
                have hf2 : (dictGet d "task_done").getD .jnull = .jbool true := hf
                rcases htd0 : dictGet d "task_done" with _ | v
                · rw [htd0] at hf2; cases hf2
                · rw [htd0] at hf2
                  simp only [Option.getD_some] at hf2
                  rw [hf2]
        · simp only [Bool.not_eq_true] at hb
          simp only [hb, Bool.not_false, if_true] at hok
          cases hok
      · simp only [hk, if_false] at hok
        cases hok

/-- Witness for C5 (amended): a fresh state with a blank-command
violation is answered by one corrective retry. -/
theorem claim_C5_witness :
    ∃ m, validate_llm_response (initLLMState "S")
        (.dict [("task_done", .jbool false), ("thoughts", .jstr "t"), ("command", .jstr "")]) =
        .ok (retryBump (initLLMState "S") m, none) ∧
      strContains m "LLM_RES_ERROR" = true ∧
      (retryBump (initLLMState "S") m).retries = (initLLMState "S").retries + 1 ∧
      (retryBump (initLLMState "S") m).messages =
        (initLLMState "S").messages ++ [⟨"user", m⟩] :=
  claim_C5.1 (initLLMState "S") _ (by decide)
    (Or.inr (Or.inr (Or.inl ⟨rfl, Or.inr (Or.inr (Or.inl ⟨"", rfl, rfl⟩))⟩)))

theorem pySliceFrom_neg_nat {α : Type} (t : Nat) (ht : 1 ≤ t) (xs : List α) :
    pySliceFrom (-((t : Int) * 2)) xs = xs.drop (xs.length - 2 * t) := by
  unfold pySliceFrom
  rw [if_neg (by omega)]
  have h2 : (-(-((t : Int) * 2))).toNat = 2 * t := by omega
  rw [h2]

/-! ## Claim C6: context summarization -/

/-- C6: `update_context(0, summary)` leaves only the summary-bearing
system message and returns the fixed continuation placeholder; for
`turnsToKeep = t ≥ 1` with more than `2t` messages remaining after the
pop, the kept window is verbatim the last `2t` popped-list messages (a
suffix), the new message list is the rebuilt system message followed by
that window minus its final user turn, and the return value is that final
kept turn's content (the most recent preserved user turn, which the
orchestrator re-feeds to the LLM). -/
theorem claim_C6 :
    (∀ (st : LLMState) (summary : String), st.messages ≠ [] →
      (update_context st 0 summary).1.messages =
        [⟨"system", ctx_system_prompt (msg0Of st) summary⟩] ∧
      (update_context st 0 summary).2 = continuationPlaceholder) ∧
    (∀ (st : LLMState) (t : Nat) (summary : String), 1 ≤ t →
      2 * t < st.messages.dropLast.length →
      ∃ (recent : List Msg) (lastMsg : Msg),
        recent = st.messages.dropLast.drop (st.messages.dropLast.length - 2 * t) ∧
        recent.length = 2 * t ∧
        recent <:+ st.messages.dropLast ∧
        recent.getLast? = some lastMsg ∧
        (update_context st (t : Int) summary).1.messages =
          ⟨"system", ctx_system_prompt (msg0Of st) summary⟩ :: recent.dropLast ∧
        (update_context st (t : Int) summary).2 = lastMsg.content) := by
  constructor
  · intro st summary hne
    exact ⟨rfl, rfl⟩
  · intro st t summary ht hlen
    have hreclen :
        (st.messages.dropLast.drop (st.messages.dropLast.length - 2 * t)).length = 2 * t := by
      rw [List.length_drop]
      omega
    have hrecne :
        st.messages.dropLast.drop (st.messages.dropLast.length - 2 * t) ≠ [] := by
      intro h
      rw [h] at hreclen
      simp at hreclen
      omega
    obtain ⟨lastMsg, hlast⟩ :=
      Option.isSome_iff_exists.mp (List.getLast?_isSome.mpr hrecne)
    refine ⟨_, lastMsg, rfl, hreclen, List.drop_suffix _ _, hlast, ?_, ?_⟩ <;>
    · unfold update_context
      dsimp only
      rw [if_neg (by omega), if_pos (by push_cast; omega), pySliceFrom_neg_nat t ht,
        hlast]

/-- Witness for C6 at a concrete seven-message conversation with
`turnsToKeep = 1`. -/
theorem claim_C6_witness :
    (sevenMsgState.messages ≠ [] ∧
      (update_context sevenMsgState 0 "").1.messages =
        [⟨"system", ctx_system_prompt (msg0Of sevenMsgState) ""⟩] ∧
      (update_context sevenMsgState 0 "").2 = continuationPlaceholder) ∧
    ((1 : Nat) ≤ 1 ∧ 2 * 1 < sevenMsgState.messages.dropLast.length ∧
      ∃ (recent : List Msg) (lastMsg : Msg),
        recent = sevenMsgState.messages.dropLast.drop
          (sevenMsgState.messages.dropLast.length - 2 * 1) ∧
        recent.length = 2 * 1 ∧
        recent <:+ sevenMsgState.messages.dropLast ∧
        recent.getLast? = some lastMsg ∧
        (update_context sevenMsgState ((1 : Nat) : Int) "").1.messages =
          ⟨"system", ctx_system_prompt (msg0Of sevenMsgState) ""⟩ :: recent.dropLast ∧
        (update_context sevenMsgState ((1 : Nat) : Int) "").2 = lastMsg.content) := by
  refine ⟨⟨by decide, (claim_C6.1 sevenMsgState "" (by decide)).1,
    (claim_C6.1 sevenMsgState "" (by decide)).2⟩,
    le_refl 1, by decide, claim_C6.2 sevenMsgState 1 "" (le_refl 1) (by decide)⟩

/-- Witness for C9: `max_iterations = 2` with the mock oracle yields the
max-iterations error and zero sandbox calls. -/
theorem claim_C9_witness :
    ∃ r stF,
      run mockOracle 5 "list files" 2 200 (initLLMState "SYS") = .ok (some (r, stF)) ∧
      stF.execCount ≤ 2 - 2 ∧
      (2 = 1 ∨ 2 = 2 → r.error = some (maxIterationsMsg 2) ∧ stF.execCount = 0) :=
  claim_C9 mockOracle 5 "list files" 2 200 (initLLMState "SYS") (by omega)
    (fun _ _ => rfl)

/-! ## Claim C10: substring-based blocklist matching -/

theorem takeWhile_ne_nl (b : List Char) (h : '\n' ∉ b) :
    b.takeWhile (fun c => c ≠ '\n') = b := by
  induction b with
  | nil => rfl
  | cons c b ih =>
    have hc : c ≠ '\n' := fun hc => h (hc ▸ List.mem_cons_self c b)
    rw [List.takeWhile_cons, if_pos (by simpa using hc),
      ih (fun hm => h (List.mem_cons_of_mem c hm))]

/-- Completeness of the `\btree\b` search: it fires at any standalone
(case-insensitive, word-boundary-delimited) occurrence of `tree`. -/
theorem searchTree_complete (w b : List Char)
    (hw : w.map Char.toLower = "tree".data) (hb : boundaryAfter b = true) :
    ∀ (a : List Char) (prev : Option Char),
      atWordStart ((a.getLast?).elim prev some) = true →
      searchTree prev (a ++ (w ++ b)) = true := by
  have htree : "tree".data = ['t', 'r', 'e', 'e'] := rfl
  rw [htree] at hw
  rcases w with _ | ⟨c1, _ | ⟨c2, _ | ⟨c3, _ | ⟨c4, _ | ⟨c5, w⟩⟩⟩⟩⟩ <;> simp at hw
  obtain ⟨h1, h2, h3, h4⟩ := hw
  have hhere : treeAt (c1 :: c2 :: c3 :: c4 :: b) = true := by
    simp [treeAt, lowEq, h1, h2, h3, h4, hb]
  intro a
  induction a with
  | nil =>
    intro prev hprev
    simp only [List.getLast?, Option.elim] at hprev
    simp only [List.nil_append, List.cons_append, searchTree, Bool.or_eq_true]
    left
    rw [Bool.and_eq_true]
    exact ⟨hprev, by simpa using hhere⟩
  | cons c a' ih =>
    intro prev hprev
    simp only [List.cons_append, searchTree, Bool.or_eq_true]
    right
    apply ih (some c)
    cases a' with
    | nil => simpa using hprev
    | cons d a'' =>
      obtain ⟨x, hx⟩ :=
        Option.isSome_iff_exists.mp (List.getLast?_isSome.mpr (List.cons_ne_nil d a''))
      rw [List.getLast?_cons_cons, hx] at hprev
      rw [hx]
      exact hprev

/-- Completeness of the `\bfind\b(?!.*-maxdepth)` search: it fires at any
standalone occurrence of `find` not followed (on the same line) by
`-maxdepth`. -/
theorem searchFindNoDepth_complete (w b : List Char)
    (hw : w.map Char.toLower = "find".data) (hb : boundaryAfter b = true)
    (hnl : '\n' ∉ b) (hmd : containsCI maxdepthLit b = false) :
    ∀ (a : List Char) (prev : Option Char),
      atWordStart ((a.getLast?).elim prev some) = true →
      searchFindNoDepth prev (a ++ (w ++ b)) = true := by
  have hfind : "find".data = ['f', 'i', 'n', 'd'] := rfl
  rw [hfind] at hw
  rcases w with _ | ⟨c1, _ | ⟨c2, _ | ⟨c3, _ | ⟨c4, _ | ⟨c5, w⟩⟩⟩⟩⟩ <;> simp at hw
  obtain ⟨h1, h2, h3, h4⟩ := hw
  have hhere : findUnboundedAt (c1 :: c2 :: c3 :: c4 :: b) = true := by
    unfold findUnboundedAt findAt
    dsimp only
    rw [if_pos (by simp [lowEq, h1, h2, h3, h4])]
    dsimp only
    rw [takeWhile_ne_nl b hnl]
    simp [hb, hmd]
  intro a
  induction a with
  | nil =>
    intro prev hprev
    simp only [List.getLast?, Option.elim] at hprev
    simp only [List.nil_append, List.cons_append, searchFindNoDepth, Bool.or_eq_true]
    left
    rw [Bool.and_eq_true]
    exact ⟨hprev, by simpa using hhere⟩
  | cons c a' ih =>
    intro prev hprev
    simp only [List.cons_append, searchFindNoDepth, Bool.or_eq_true]
    right
    apply ih (some c)
    cases a' with
    | nil => simpa using hprev
    | cons d a'' =>
      obtain ⟨x, hx⟩ :=
        Option.isSome_iff_exists.mp (List.getLast?_isSome.mpr (List.cons_ne_nil d a''))
      rw [List.getLast?_cons_cons, hx] at hprev
      rw [hx]
      exact hprev

set_option maxRecDepth 8000 in
/-- C10: blocklist matching is substring-based with case-insensitive word
boundaries over the whole (stripped) command: any command containing the
standalone word `tree` anywhere, or the standalone word `find` with no
`-maxdepth` later on its line, is classified unsafe, even when the
blocklisted program is not the one invoked — concretely `cat tree.txt`
and `grep find notes.log` are both rejected. -/
theorem claim_C10 :
    (∀ (cmd : String) (a w b : List Char),
      pyStrip cmd.data = a ++ (w ++ b) →
      w.map Char.toLower = "tree".data →
      atWordStart ((a.getLast?).elim none some) = true →
      boundaryAfter b = true →
      (is_safe_command (some cmd)).1 = false) ∧
    (∀ (cmd : String) (a w b : List Char),
      pyStrip cmd.data = a ++ (w ++ b) →
      w.map Char.toLower = "find".data →
      atWordStart ((a.getLast?).elim none some) = true →
      boundaryAfter b = true →
      '\n' ∉ b →
      containsCI maxdepthLit b = false →
      (is_safe_command (some cmd)).1 = false) ∧
    is_safe_command (some "cat tree.txt") = (false, some treeExplanation) ∧
    is_safe_command (some "grep find notes.log") = (false, some findExplanation) := by
  refine ⟨?_, ?_, by decide, by decide⟩
  · intro cmd a w b hsplit hw hpre hpost
    obtain ⟨e, he, _, _⟩ := unsafe_of_matcher cmd
      (Or.inr (Or.inl (by rw [hsplit]; exact searchTree_complete w b hw hpost a none hpre)))
    rw [he]
  · intro cmd a w b hsplit hw hpre hpost hnl hmd
    obtain ⟨e, he, _, _⟩ := unsafe_of_matcher cmd
      (Or.inr (Or.inr (Or.inr (Or.inr
        (by rw [hsplit]; exact searchFindNoDepth_complete w b hw hpost hnl hmd a none hpre)))))
    rw [he]

set_option maxRecDepth 8000 in
/-- Witness for C10: both universal clauses applied to the concrete
commands `cat tree.txt` and `grep find notes.log`. -/
theorem claim_C10_witness :
    (is_safe_command (some "cat tree.txt")).1 = false ∧
    (is_safe_command (some "grep find notes.log")).1 = false := by
  constructor
  · exact claim_C10.1 "cat tree.txt" "cat ".data "tree".data ".txt".data
      (by decide) (by decide) (by decide) (by decide)
  · exact claim_C10.2.1 "grep find notes.log" "grep ".data "find".data " notes.log".data
      (by decide) (by decide) (by decide) (by decide) (by decide) (by decide)

/-! ## Counting and line lemmas for the region invariant (claim C8) -/

theorem prefix_of_append_of_le {sub x y : List Char}
    (h : sub <+: x ++ y) (hle : sub.length ≤ x.length) : sub <+: x := by
  have h2 := List.prefix_iff_eq_take.mp h
  rw [List.take_append_eq_append_take, Nat.sub_eq_zero_of_le hle, List.take_zero,
    List.append_nil] at h2
  exact List.prefix_iff_eq_take.mpr h2

theorem mem_of_prefix_append_gt {sub x y : List Char} {c : Char}
    (h : sub <+: x ++ c :: y) (hgt : x.length < sub.length) : c ∈ sub := by
  have h2 := List.prefix_iff_eq_take.mp h
  rw [List.take_append_eq_append_take, List.take_of_length_le (le_of_lt hgt)] at h2
  rcases hk : sub.length - x.length with _ | k
  · omega
  · rw [hk, List.take_succ_cons] at h2
    rw [h2]
    exact List.mem_append_right x (List.mem_cons_self c _)

theorem countOccur_append_cons (m : List Char) (hm : m ≠ []) {c : Char} (hc : c ∉ m) :
    ∀ x y : List Char, countOccur m (x ++ c :: y) = countOccur m x + countOccur m y := by
  intro x
  induction x with
  | nil =>
    intro y
    have hpre : m.isPrefixOf (c :: y) = false := by
      rcases m with _ | ⟨d, m'⟩
      · exact absurd rfl hm
      · by_contra hp
        simp only [Bool.not_eq_false] at hp
        obtain ⟨t, ht⟩ := List.isPrefixOf_iff_prefix.mp hp
        rw [List.cons_append] at ht
        injection ht with h1 _
        exact hc (h1 ▸ List.mem_cons_self d m')
    simp [countOccur, hpre]
  | cons a x' ih =>
    intro y
    simp only [List.cons_append, countOccur, List.append_eq, ih]
    have hind : m.isPrefixOf (a :: (x' ++ c :: y)) = m.isPrefixOf (a :: x') := by
      by_cases hp : m.isPrefixOf (a :: x') = true
      · rw [hp]
        rw [List.isPrefixOf_iff_prefix] at hp ⊢
        have := hp.trans (List.prefix_append (a :: x') (c :: y))
        simpa using this
      · simp only [Bool.not_eq_true] at hp
        rw [hp]
        by_contra h2
        simp only [Bool.not_eq_false] at h2
        rw [List.isPrefixOf_iff_prefix] at h2
        by_cases hlen : m.length ≤ (a :: x').length
        · have h3 := prefix_of_append_of_le (x := a :: x') (by simpa using h2) hlen
          rw [← List.isPrefixOf_iff_prefix] at h3
          rw [h3] at hp
          cases hp
        · push_neg at hlen
          exact hc (mem_of_prefix_append_gt (x := a :: x') (by simpa using h2) hlen)
    simp only [hind]
    omega

theorem countOccur_le_append (m x y : List Char) :
    countOccur m x ≤ countOccur m (x ++ y) := by
  induction x with
  | nil => simp [countOccur]
  | cons a x' ih =>
    simp only [List.cons_append, countOccur, List.append_eq]
    have hind : (if m.isPrefixOf (a :: x') then 1 else 0) ≤
        (if m.isPrefixOf (a :: (x' ++ y)) then 1 else 0) := by
      by_cases hp : m.isPrefixOf (a :: x') = true
      · have h2 : m.isPrefixOf (a :: (x' ++ y)) = true := by
          rw [List.isPrefixOf_iff_prefix] at hp ⊢
          have := hp.trans (List.prefix_append (a :: x') y)
          simpa using this
        simp [hp, h2]
      · simp only [Bool.not_eq_true] at hp
        simp [hp]
    omega

theorem countOccur_append_le (m x y : List Char) :
    countOccur m y ≤ countOccur m (x ++ y) := by
  induction x with
  | nil => simp
  | cons a x' ih =>
    simp only [List.cons_append, countOccur, List.append_eq]
    omega

theorem containsLit_eq_false_iff (m : List Char) (hm : m ≠ []) :
    ∀ l, (containsLit m l = false ↔ countOccur m l = 0) := by
  intro l
  induction l with
  | nil =>
    rcases m with _ | ⟨d, m'⟩
    · exact absurd rfl hm
    · simp [containsLit, countOccur, List.isPrefixOf]
  | cons c rest ih =>
    simp only [containsLit, countOccur, Bool.or_eq_false_iff]
    by_cases hp : m.isPrefixOf (c :: rest) = true
    · simp [hp]
    · simp only [Bool.not_eq_true] at hp
      simp [hp, ih]

theorem containsLit_head_mem {c : Char} {m' : List Char} :
    ∀ l, containsLit (c :: m') l = true → c ∈ l := by
  intro l
  induction l with
  | nil => simp [containsLit, List.isPrefixOf]
  | cons a rest ih =>
    intro h
    simp only [containsLit, Bool.or_eq_true] at h
    rcases h with h | h
    · obtain ⟨t, ht⟩ := List.isPrefixOf_iff_prefix.mp h
      rw [List.cons_append] at ht
      injection ht with h1 _
      subst h1
      exact List.mem_cons_self c rest
    · exact List.mem_cons_of_mem a (ih h)

theorem splitNl_ne_nil (x : List Char) : splitNl x ≠ [] := by
  cases x with
  | nil => simp [splitNl]
  | cons c rest =>
    simp only [splitNl]
    split_ifs
    · simp
    · split <;> simp

theorem splitNl_cons (c : Char) (rest : List Char) :
    splitNl (c :: rest) =
      if c = '\n' then [] :: splitNl rest
      else
        match splitNl rest with
        | t :: ts => (c :: t) :: ts
        | [] => [[c]] := rfl

theorem splitNl_append (x y : List Char) :
    splitNl (x ++ '\n' :: y) = splitNl x ++ splitNl y := by
  induction x with
  | nil => simp [splitNl, splitNl_cons]
  | cons c x' ih =>
    rw [List.cons_append, splitNl_cons, splitNl_cons, ih]
    by_cases hc : c = '\n'
    · rw [if_pos hc, if_pos hc]
      rfl
    · rw [if_neg hc, if_neg hc]
      rcases h : splitNl x' with _ | ⟨t, ts⟩
      · exact absurd h (splitNl_ne_nil x')
      · rfl

theorem splitNl_no_nl (x : List Char) (h : '\n' ∉ x) : splitNl x = [x] := by
  induction x with
  | nil => rfl
  | cons c x' ih =>
    have hc : c ≠ '\n' := fun hc => h (hc ▸ List.mem_cons_self c x')
    rw [splitNl.eq_def]
    simp only [if_neg hc]
    rw [ih (fun hm => h (List.mem_cons_of_mem c hm))]

theorem mem_splitNl_no_nl (x : List Char) : ∀ l ∈ splitNl x, '\n' ∉ l := by
  induction x with
  | nil =>
    intro l hl
    simp only [splitNl, List.mem_singleton] at hl
    subst hl
    simp
  | cons c x' ih =>
    intro l hl
    by_cases hc : c = '\n'
    · subst hc
      rw [splitNl_cons, if_pos rfl] at hl
      rcases List.mem_cons.mp hl with h1 | h1
      · subst h1; simp
      · exact ih l h1
    · rw [splitNl_cons, if_neg hc] at hl
      rcases h : splitNl x' with _ | ⟨t, ts⟩
      · exact absurd h (splitNl_ne_nil x')
      · rw [h] at hl
        dsimp only at hl
        rcases List.mem_cons.mp hl with h1 | h1
        · subst h1
          intro hmem
          rcases List.mem_cons.mp hmem with h2 | h2
          · exact hc h2.symm
          · exact ih t (h ▸ List.mem_cons_self t ts) h2
        · exact ih l (h ▸ List.mem_cons_of_mem t h1)

theorem joinNl_cons_cons (l l2 : List Char) (ls : List (List Char)) :
    joinNl (l :: l2 :: ls) = l ++ '\n' :: joinNl (l2 :: ls) := rfl

theorem joinNl_append (A B : List (List Char)) (hA : A ≠ []) (hB : B ≠ []) :
    joinNl (A ++ B) = joinNl A ++ '\n' :: joinNl B := by
  induction A with
  | nil => exact absurd rfl hA
  | cons l A' ih =>
    cases A' with
    | nil =>
      cases B with
      | nil => exact absurd rfl hB
      | cons b B' => simp [joinNl_cons_cons, joinNl]
    | cons l2 A'' =>
      have h2 := ih (by simp)
      rw [List.cons_append] at h2
      rw [List.cons_append, List.cons_append, joinNl_cons_cons, h2, joinNl_cons_cons]
      simp

theorem joinNl_splitNl (x : List Char) : joinNl (splitNl x) = x := by
  induction x with
  | nil => rfl
  | cons c x' ih =>
    by_cases hc : c = '\n'
    · subst hc
      rw [splitNl_cons, if_pos rfl]
      rcases h : splitNl x' with _ | ⟨t, ts⟩
      · exact absurd h (splitNl_ne_nil x')
      · rw [h] at ih
        rw [joinNl_cons_cons, ih]
        simp
    · rw [splitNl_cons, if_neg hc]
      rcases h : splitNl x' with _ | ⟨t, ts⟩
      · exact absurd h (splitNl_ne_nil x')
      · rw [h] at ih
        dsimp only
        cases ts with
        | nil =>
          simp only [joinNl] at ih ⊢
          rw [ih]
        | cons t2 ts' =>
          rw [joinNl_cons_cons] at ih
          rw [joinNl_cons_cons, List.cons_append, ih]

theorem countOccur_joinNl (m : List Char) (hm : m ≠ []) (hnl : '\n' ∉ m) :
    ∀ L : List (List Char), countOccur m (joinNl L) = (L.map (countOccur m)).sum := by
  intro L
  induction L with
  | nil => simp [joinNl, countOccur]
  | cons l L' ih =>
    cases L' with
    | nil => simp [joinNl]
    | cons l2 L'' =>
      rw [joinNl_cons_cons, countOccur_append_cons m hm hnl, ih]
      simp

theorem mem_splitNl_count_zero (m : List Char) (hm : m ≠ []) (hnl : '\n' ∉ m)
    (x : List Char) (hx : countOccur m x = 0) :
    ∀ l ∈ splitNl x, countOccur m l = 0 := by
  intro l hl
  have h2 := countOccur_joinNl m hm hnl (splitNl x)
  rw [joinNl_splitNl, hx] at h2
  have hsum := h2.symm
  rw [List.sum_eq_zero_iff] at hsum
  exact hsum _ (List.mem_map_of_mem _ hl)

/-! ## Occurrence counting, splitting, and stripping (claim C8) -/

theorem countOccur_short (m : List Char) :
    ∀ l : List Char, l.length < m.length → countOccur m l = 0 := by
  intro l
  induction l with
  | nil => intro _; rfl
  | cons c rest ih =>
    intro h
    have hpre : m.isPrefixOf (c :: rest) = false := by
      by_contra h2
      simp only [Bool.not_eq_false] at h2
      have h3 := (List.isPrefixOf_iff_prefix.mp h2).length_le
      simp only [List.length_cons] at h3 h
      omega
    simp only [List.length_cons] at h
    simp only [countOccur, hpre, Bool.false_eq_true, if_false, Nat.zero_add]
    exact ih (by omega)

theorem countOccur_self (m : List Char) (hm : m ≠ []) : countOccur m m = 1 := by
  rcases m with _ | ⟨c, m2⟩
  · exact absurd rfl hm
  · have hpre : (c :: m2).isPrefixOf (c :: m2) = true :=
      List.isPrefixOf_iff_prefix.mpr (List.prefix_refl _)
    have h0 : countOccur (c :: m2) m2 = 0 :=
      countOccur_short _ _ (by simp)
    simp [countOccur, hpre, h0]

theorem countOccur_cons_not_mem (m : List Char) (hm : m ≠ []) {c : Char} (hc : c ∉ m)
    (y : List Char) : countOccur m (c :: y) = countOccur m y := by
  have h := countOccur_append_cons m hm hc [] y
  simpa [countOccur] using h

theorem countOccur_concat_not_mem (m : List Char) (hm : m ≠ []) {c : Char} (hc : c ∉ m)
    (x : List Char) : countOccur m (x ++ [c]) = countOccur m x := by
  have h := countOccur_append_cons m hm hc x []
  simpa [countOccur] using h

theorem countOccur_le_cons (m : List Char) (c : Char) (y : List Char) :
    countOccur m y ≤ countOccur m (c :: y) := by
  have h : countOccur m (c :: y) = (if m.isPrefixOf (c :: y) then 1 else 0) + countOccur m y :=
    rfl
  rw [h]
  split <;> omega

theorem countOccur_infix_zero (m u y v : List Char)
    (h : countOccur m (u ++ y ++ v) = 0) : countOccur m y = 0 := by
  have h1 := countOccur_le_append m (u ++ y) v
  have h2 := countOccur_append_le m u y
  omega

theorem mfreeL_counts {l : List Char} :
    mfreeL l ↔ (countOccur ctxM l = 0 ∧ countOccur endM l = 0) := by
  rw [mfreeL, containsLit_eq_false_iff ctxM (by decide), containsLit_eq_false_iff endM (by decide)]

theorem mfree_counts {s : String} :
    mfree s ↔ (countOccur ctxM s.data = 0 ∧ countOccur endM s.data = 0) := mfreeL_counts

theorem splitHeadL_cons (sep : List Char) (c : Char) (rest : List Char) :
    splitHeadL sep (c :: rest) =
      if sep.isPrefixOf (c :: rest) then [] else c :: splitHeadL sep rest := rfl

theorem splitTailL_cons (sep : List Char) (c : Char) (rest : List Char) :
    splitTailL sep (c :: rest) =
      if sep.isPrefixOf (c :: rest) then some ((c :: rest).drop sep.length)
      else splitTailL sep rest := rfl

theorem splitHeadL_of_not_contains (sep : List Char) :
    ∀ l, containsLit sep l = false → splitHeadL sep l = l ∧ splitTailL sep l = none := by
  intro l
  induction l with
  | nil => intro _; exact ⟨rfl, rfl⟩
  | cons c rest ih =>
    intro h
    simp only [containsLit, Bool.or_eq_false_iff] at h
    obtain ⟨h1, h2⟩ := h
    obtain ⟨ih1, ih2⟩ := ih h2
    constructor
    · simp only [splitHeadL_cons, h1, Bool.false_eq_true, if_false, ih1]
    · simp only [splitTailL_cons, h1, Bool.false_eq_true, if_false, ih2]

theorem isPrefixOf_false_of_head_not_mem (sep : List Char) (hsep : sep ≠ []) {c : Char}
    (hc : c ∉ sep) (R : List Char) : sep.isPrefixOf (c :: R) = false := by
  rcases sep with _ | ⟨d, sep2⟩
  · exact absurd rfl hsep
  · by_contra h2
    simp only [Bool.not_eq_false] at h2
    obtain ⟨t, ht⟩ := List.isPrefixOf_iff_prefix.mp h2
    rw [List.cons_append] at ht
    injection ht with ha _
    exact hc (ha ▸ List.mem_cons_self d sep2)

theorem splitHeadL_self_append (sep : List Char) (hsep : sep ≠ []) (R : List Char) :
    splitHeadL sep (sep ++ R) = [] := by
  rcases sep with _ | ⟨d, sep2⟩
  · exact absurd rfl hsep
  · have hpre : (d :: sep2).isPrefixOf (d :: (sep2 ++ R)) = true := by
      rw [← List.cons_append]
      exact List.isPrefixOf_iff_prefix.mpr (List.prefix_append _ R)
    rw [List.cons_append, splitHeadL_cons, if_pos hpre]

theorem splitTailL_self_append (sep : List Char) (hsep : sep ≠ []) (R : List Char) :
    splitTailL sep (sep ++ R) = some R := by
  rcases sep with _ | ⟨d, sep2⟩
  · exact absurd rfl hsep
  · have hpre : (d :: sep2).isPrefixOf (d :: (sep2 ++ R)) = true := by
      rw [← List.cons_append]
      exact List.isPrefixOf_iff_prefix.mpr (List.prefix_append _ R)
    rw [List.cons_append, splitTailL_cons, if_pos hpre, ← List.cons_append, List.drop_left]

theorem split_at_marker (sep : List Char) (hsep : sep ≠ []) (hns : '\n' ∉ sep) :
    ∀ X R : List Char, countOccur sep (X ++ ['\n']) = 0 →
      splitHeadL sep (X ++ '\n' :: (sep ++ R)) = X ++ ['\n'] ∧
      splitTailL sep (X ++ '\n' :: (sep ++ R)) = some R := by
  intro X
  induction X with
  | nil =>
    intro R _
    have h1 : sep.isPrefixOf ('\n' :: (sep ++ R)) = false :=
      isPrefixOf_false_of_head_not_mem sep hsep hns _
    refine ⟨?_, ?_⟩
    · rw [List.nil_append, splitHeadL_cons, if_neg (by simp [h1]),
        splitHeadL_self_append sep hsep]
      rfl
    · rw [List.nil_append, splitTailL_cons, if_neg (by simp [h1]),
        splitTailL_self_append sep hsep]
  | cons x X2 ih =>
    intro R hcount
    have hc0 : (if sep.isPrefixOf (x :: (X2 ++ ['\n'])) then 1 else 0)
        + countOccur sep (X2 ++ ['\n']) = 0 := by
      have h := hcount
      rw [List.cons_append] at h
      exact h
    have hpre0 : sep.isPrefixOf (x :: (X2 ++ ['\n'])) = false := by
      by_contra h2
      simp only [Bool.not_eq_false] at h2
      rw [h2] at hc0
      simp at hc0
    have htail : countOccur sep (X2 ++ ['\n']) = 0 := by
      rw [hpre0] at hc0
      simpa using hc0
    have hmain : sep.isPrefixOf (x :: (X2 ++ '\n' :: (sep ++ R))) = false := by
      by_contra h2
      simp only [Bool.not_eq_false] at h2
      have hp := List.isPrefixOf_iff_prefix.mp h2
      have hshape : x :: (X2 ++ '\n' :: (sep ++ R)) = ((x :: X2) ++ ['\n']) ++ (sep ++ R) := by
        simp
      rw [hshape] at hp
      by_cases hlen : sep.length ≤ ((x :: X2) ++ ['\n']).length
      · have h3 := prefix_of_append_of_le hp hlen
        rw [← List.isPrefixOf_iff_prefix] at h3
        rw [List.cons_append] at h3
        rw [h3] at hpre0
        cases hpre0
      · push_neg at hlen
        have hshape2 : ((x :: X2) ++ ['\n']) ++ (sep ++ R) = (x :: X2) ++ '\n' :: (sep ++ R) := by
          simp
        rw [hshape2] at hp
        have hlen2 : (x :: X2).length < sep.length := by
          simp only [List.length_append, List.length_cons, List.length_singleton] at hlen
          simp only [List.length_cons]
          omega
        exact hns (mem_of_prefix_append_gt hp hlen2)
    obtain ⟨ihh, iht⟩ := ih R htail
    refine ⟨?_, ?_⟩
    · rw [List.cons_append, splitHeadL_cons, if_neg (by simp [hmain]), ihh, List.cons_append]
    · rw [List.cons_append, splitTailL_cons, if_neg (by simp [hmain]), iht]

theorem pyRstrip_prefix (l : List Char) : ∃ t, l = pyRstrip l ++ t :=
  ⟨(l.reverse.takeWhile isPySpace).reverse, by
    rw [pyRstrip, ← List.reverse_append, List.takeWhile_append_dropWhile, List.reverse_reverse]⟩

theorem pyStrip_infix (l : List Char) : ∃ u v, l = u ++ pyStrip l ++ v := by
  obtain ⟨v, hv⟩ := pyRstrip_prefix (l.dropWhile isPySpace)
  refine ⟨l.takeWhile isPySpace, v, ?_⟩
  have h2 : pyStrip l = pyRstrip (l.dropWhile isPySpace) := rfl
  rw [h2, List.append_assoc, ← hv, List.takeWhile_append_dropWhile]

theorem digitChar_ne (k : Nat) (hk : k < 10) :
    Nat.digitChar k ≠ '_' ∧ Nat.digitChar k ≠ '\n' := by
  interval_cases k <;> exact ⟨by decide, by decide⟩

theorem toDigitsCore_chars (fuel : Nat) :
    ∀ (n : Nat) (ds : List Char), (∀ c ∈ ds, c ≠ '_' ∧ c ≠ '\n') →
      ∀ c ∈ Nat.toDigitsCore 10 fuel n ds, c ≠ '_' ∧ c ≠ '\n' := by
  induction fuel with
  | zero => intro n ds hds; simpa [Nat.toDigitsCore] using hds
  | succ fuel ih =>
    intro n ds hds
    rw [Nat.toDigitsCore]
    have hd : ∀ c ∈ (Nat.digitChar (n % 10) :: ds), c ≠ '_' ∧ c ≠ '\n' := by
      intro c hc
      rcases List.mem_cons.mp hc with rfl | hc2
      · exact digitChar_ne _ (Nat.mod_lt _ (by norm_num))
      · exact hds c hc2
    split
    · exact hd
    · exact ih _ _ hd

theorem toString_nat_chars (n : Nat) : ∀ c ∈ (toString n).data, c ≠ '_' ∧ c ≠ '\n' := by
  have h : (toString n).data = Nat.toDigitsCore 10 (n + 1) n [] := rfl
  rw [h]
  exact toDigitsCore_chars (n + 1) n [] (by simp)

theorem replacement_line_counts (lp : String) (r : Nat) (hus : '_' ∉ lp.data) :
    countOccur ctxM (lp ++ " " ++ toString r).data = 0 ∧
    countOccur endM (lp ++ " " ++ toString r).data = 0 := by
  have hmem : '_' ∉ (lp ++ " " ++ toString r).data := by
    simp only [String.data_append, List.mem_append]
    push_neg
    refine ⟨⟨hus, by decide⟩, ?_⟩
    intro hd
    exact (toString_nat_chars r '_' hd).1 rfl
  have e1 : ctxM = '_' :: "_context__".data := by decide
  have e2 : endM = '_' :: "_end_context__".data := by decide
  constructor
  · rw [← containsLit_eq_false_iff ctxM (by decide)]
    by_contra h2
    simp only [Bool.not_eq_false] at h2
    rw [e1] at h2
    exact hmem (containsLit_head_mem _ h2)
  · rw [← containsLit_eq_false_iff endM (by decide)]
    by_contra h2
    simp only [Bool.not_eq_false] at h2
    rw [e2] at h2
    exact hmem (containsLit_head_mem _ h2)

/-! ## Arithmetic of a well-delimited region (claim C8) -/

theorem splitHeadS_eq (sep s : String) :
    splitHeadS sep s = String.mk (splitHeadL sep.data s.data) := rfl

theorem splitSecondS_eq (sep s : String) :
    splitSecondS sep s =
      match splitTailL sep.data s.data with
      | some r => String.mk (splitHeadL sep.data r)
      | none => "" := rfl

theorem region_extract_eq (p : String) :
    region_extract p = splitSecondS ctxMarker (splitHeadS endMarker p) := rfl

theorem region_facts (p : String) (B C S : List Char)
    (hp : p.data = B ++ ctxM ++ C ++ endM ++ S)
    (hB : countOccur ctxM B = 0 ∧ countOccur endM B = 0)
    (hC : countOccur ctxM C = 0 ∧ countOccur endM C = 0)
    (hS : countOccur ctxM S = 0 ∧ countOccur endM S = 0)
    (hBl : B.getLast? = some '\n') (hCh : C.head? = some '\n') (hCl : C.getLast? = some '\n')
    (hSh : S = [] ∨ S.head? = some '\n') :
    RegionChar p ∧
    countOccur ctxM p.data = 1 ∧ countOccur endM p.data = 1 ∧
    strContains p ctxMarker = true ∧
    splitHeadS ctxMarker p = ⟨B⟩ ∧
    region_extract p = ⟨C⟩ := by
  have hctxne : ctxM ≠ [] := by decide
  have hendne : endM ≠ [] := by decide
  have hctxnl : '\n' ∉ ctxM := by decide
  have hendnl : '\n' ∉ endM := by decide
  obtain ⟨XB, hXB⟩ := List.getLast?_eq_some_iff.mp hBl
  obtain ⟨C2, hC2⟩ : ∃ t, C = '\n' :: t := by
    rcases C with _ | ⟨c0, t⟩
    · cases hCh
    · simp only [List.head?_cons, Option.some.injEq] at hCh
      exact ⟨t, by rw [hCh]⟩
  obtain ⟨C4, hC4⟩ := List.getLast?_eq_some_iff.mp hCl
  have hXBc : countOccur ctxM XB = 0 := by
    have h1 := countOccur_le_append ctxM XB ['\n']
    rw [← hXB] at h1
    omega
  have hXBe : countOccur endM XB = 0 := by
    have h1 := countOccur_le_append endM XB ['\n']
    rw [← hXB] at h1
    omega
  have hSd : S = [] ∨ ∃ S2, S = '\n' :: S2 := by
    rcases hSh with rfl | h2
    · exact Or.inl rfl
    · rcases S with _ | ⟨s0, t⟩
      · exact Or.inl rfl
      · simp only [List.head?_cons, Option.some.injEq] at h2
        exact Or.inr ⟨t, by rw [h2]⟩
  have hC2d : C2 = [] ∨ ∃ C5, C2 = C5 ++ ['\n'] := by
    rcases C2 with _ | ⟨d, C3⟩
    · exact Or.inl rfl
    · right
      have h5 : C.getLast? = (d :: C3).getLast? := by
        rw [hC2]
        exact List.getLast?_cons_cons
      exact List.getLast?_eq_some_iff.mp (by rw [← h5]; exact hCl)
  have hEctx : countOccur ctxM (endM ++ S) = 0 := by
    rcases hSd with rfl | ⟨S2, rfl⟩
    · rw [List.append_nil]
      decide
    · rw [countOccur_append_cons ctxM hctxne hctxnl endM S2]
      have h6 := countOccur_le_cons ctxM '\n' S2
      have h7 : countOccur ctxM ('\n' :: S2) = 0 := hS.1
      have h8 : countOccur ctxM endM = 0 := by decide
      omega
  have hEend : countOccur endM (endM ++ S) = 1 := by
    rcases hSd with rfl | ⟨S2, rfl⟩
    · rw [List.append_nil]
      exact countOccur_self endM hendne
    · rw [countOccur_append_cons endM hendne hendnl endM S2]
      have h6 := countOccur_le_cons endM '\n' S2
      have h7 : countOccur endM ('\n' :: S2) = 0 := hS.2
      have h8 := countOccur_self endM hendne
      omega
  have hmid : ∀ m : List Char, m ≠ [] → '\n' ∉ m → countOccur m C = 0 →
      countOccur m (C2 ++ (endM ++ S)) = countOccur m (endM ++ S) := by
    intro m hm hmnl hmC
    rcases hC2d with h0 | ⟨C5, h5⟩
    · rw [h0, List.nil_append]
    · rw [hC2, h5] at hmC
      have h6 := countOccur_le_cons m '\n' (C5 ++ ['\n'])
      have h7 := countOccur_le_append m C5 ['\n']
      have hC5 : countOccur m C5 = 0 := by omega
      have hsh : C2 ++ (endM ++ S) = C5 ++ '\n' :: (endM ++ S) := by
        rw [h5]
        simp
      rw [hsh, countOccur_append_cons m hm hmnl C5 (endM ++ S), hC5]
      omega
  have hdata : p.data = XB ++ '\n' :: (ctxM ++ ('\n' :: (C2 ++ (endM ++ S)))) := by
    rw [hp, hXB, hC2]
    simp
  have hcnt_ctx : countOccur ctxM p.data = 1 := by
    rw [hdata, countOccur_append_cons ctxM hctxne hctxnl XB _,
      countOccur_append_cons ctxM hctxne hctxnl ctxM _,
      hmid ctxM hctxne hctxnl hC.1, hEctx, hXBc, countOccur_self ctxM hctxne]
  have hcnt_end : countOccur endM p.data = 1 := by
    have h8 : countOccur endM ctxM = 0 := by decide
    rw [hdata, countOccur_append_cons endM hendne hendnl XB _,
      countOccur_append_cons endM hendne hendnl ctxM _,
      hmid endM hendne hendnl hC.2, hEend, hXBe, h8]
  have hcountB_ctx : countOccur ctxM (XB ++ ['\n']) = 0 := by
    rw [← hXB]
    exact hB.1
  have hdata2 : p.data = XB ++ '\n' :: (ctxM ++ (C ++ (endM ++ S))) := by
    rw [hp, hXB]
    simp
  have hsplit1 := split_at_marker ctxM hctxne hctxnl XB (C ++ (endM ++ S)) hcountB_ctx
  have hcontains : strContains p ctxMarker = true := by
    rw [strContains]
    have hsh : p.data = B ++ (ctxM ++ (C ++ (endM ++ S))) := by
      rw [hp]
      simp
    rw [hsh]
    exact containsLit_append_right ctxM (ctxM ++ (C ++ (endM ++ S))) B
      (containsLit_self_append ctxM (C ++ (endM ++ S)))
  have hheadC : splitHeadS ctxMarker p = ⟨B⟩ := by
    rw [splitHeadS_eq]
    apply congrArg String.mk
    rw [show ctxMarker.data = ctxM from rfl, hdata2, hsplit1.1, ← hXB]
  have hcount3 : countOccur endM ((B ++ (ctxM ++ C4)) ++ ['\n']) = 0 := by
    have hsh2 : (B ++ (ctxM ++ C4)) ++ ['\n'] = B ++ (ctxM ++ C) := by
      rw [hC4]
      simp
    rw [hsh2, hXB]
    have hsh3 : (XB ++ ['\n']) ++ (ctxM ++ C) = XB ++ '\n' :: (ctxM ++ C) := by simp
    rw [hsh3, countOccur_append_cons endM hendne hendnl XB _, hC2,
      countOccur_append_cons endM hendne hendnl ctxM C2]
    have h6 := countOccur_le_cons endM '\n' C2
    have h7 : countOccur endM ('\n' :: C2) = 0 := by
      rw [← hC2]
      exact hC.2
    have h8 : countOccur endM ctxM = 0 := by decide
    omega
  have hdata3 : p.data = (B ++ (ctxM ++ C4)) ++ '\n' :: (endM ++ S) := by
    rw [hp, hC4]
    simp
  have hsplitE := split_at_marker endM hendne hendnl (B ++ (ctxM ++ C4)) S hcount3
  have hheadE : splitHeadS endMarker p = ⟨B ++ (ctxM ++ C)⟩ := by
    rw [splitHeadS_eq]
    apply congrArg String.mk
    rw [show endMarker.data = endM from rfl, hdata3, hsplitE.1, hC4]
    simp
  have hz : B ++ (ctxM ++ C) = XB ++ '\n' :: (ctxM ++ C) := by
    rw [hXB]
    simp
  have hsplit2 := split_at_marker ctxM hctxne hctxnl XB C hcountB_ctx
  have hE1 := splitHeadL_of_not_contains ctxM C
    ((containsLit_eq_false_iff ctxM (by decide) C).mpr hC.1)
  have hregion : region_extract p = ⟨C⟩ := by
    rw [region_extract_eq, hheadE, splitSecondS_eq]
    rw [show (String.mk (B ++ (ctxM ++ C))).data = B ++ (ctxM ++ C) from rfl,
      show ctxMarker.data = ctxM from rfl, hz, hsplit2.2]
    dsimp only
    rw [hE1.1]
  refine ⟨⟨B, C, S, hp, mfreeL_counts.mpr hB, mfreeL_counts.mpr hC, mfreeL_counts.mpr hS,
    hBl, hCh, hCl, hSh⟩, hcnt_ctx, hcnt_end, hcontains, hheadC, hregion⟩

theorem goodPrompt_counts (p : String) (h : GoodPrompt p) :
    (countOccur ctxM p.data = 1 ∧ countOccur endM p.data = 1) ∨
    (countOccur ctxM p.data = 0 ∧ countOccur endM p.data = 0) := by
  rcases h with h | h
  · obtain ⟨B, C, S, hp, hB, hC, hS, hBl, hCh, hCl, hSh⟩ := h
    have hf := region_facts p B C S hp (mfreeL_counts.mp hB) (mfreeL_counts.mp hC)
      (mfreeL_counts.mp hS) hBl hCh hCl hSh
    exact Or.inl ⟨hf.2.1, hf.2.2.1⟩
  · exact Or.inr (mfree_counts.mp h)

/-! ## Line decomposition of a region prompt and the reward rewrite (claim C8) -/

theorem countOccur_joinNl_zero (m : List Char) (hm : m ≠ []) (hmnl : '\n' ∉ m)
    (L : List (List Char)) (hL : ∀ l ∈ L, countOccur m l = 0) :
    countOccur m (joinNl L) = 0 := by
  rw [countOccur_joinNl m hm hmnl L]
  apply List.sum_eq_zero
  intro x hx
  obtain ⟨l, hl, rfl⟩ := List.mem_map.mp hx
  exact hL l hl

theorem splitNl_region (B C S : List Char)
    (hB : countOccur ctxM B = 0 ∧ countOccur endM B = 0)
    (hC : countOccur ctxM C = 0 ∧ countOccur endM C = 0)
    (hS : countOccur ctxM S = 0 ∧ countOccur endM S = 0)
    (hBl : B.getLast? = some '\n') (hCh : C.head? = some '\n') (hCl : C.getLast? = some '\n')
    (hSh : S = [] ∨ S.head? = some '\n') :
    ∃ A M T : List (List Char),
      splitNl (B ++ ctxM ++ C ++ endM ++ S) = A ++ ctxM :: (M ++ endM :: T) ∧
      A ≠ [] ∧
      (∀ l, (l ∈ A ∨ l ∈ M ∨ l ∈ T) →
        countOccur ctxM l = 0 ∧ countOccur endM l = 0) := by
  have hctxnl : '\n' ∉ ctxM := by decide
  have hendnl : '\n' ∉ endM := by decide
  obtain ⟨XB, hXB⟩ := List.getLast?_eq_some_iff.mp hBl
  obtain ⟨C2, hC2⟩ : ∃ t, C = '\n' :: t := by
    rcases C with _ | ⟨c0, t⟩
    · cases hCh
    · simp only [List.head?_cons, Option.some.injEq] at hCh
      exact ⟨t, by rw [hCh]⟩
  have hXBc : countOccur ctxM XB = 0 := by
    have h1 := countOccur_le_append ctxM XB ['\n']
    rw [← hXB] at h1
    have h2 := hB.1
    omega
  have hXBe : countOccur endM XB = 0 := by
    have h1 := countOccur_le_append endM XB ['\n']
    rw [← hXB] at h1
    have h2 := hB.2
    omega
  have hAfact : ∀ l ∈ splitNl XB, countOccur ctxM l = 0 ∧ countOccur endM l = 0 := by
    intro l hl
    exact ⟨mem_splitNl_count_zero ctxM (by decide) (by decide) XB hXBc l hl,
      mem_splitNl_count_zero endM (by decide) (by decide) XB hXBe l hl⟩
  have hSd : S = [] ∨ ∃ S2, S = '\n' :: S2 := by
    rcases hSh with rfl | h2
    · exact Or.inl rfl
    · rcases S with _ | ⟨s0, t⟩
      · exact Or.inl rfl
      · simp only [List.head?_cons, Option.some.injEq] at h2
        exact Or.inr ⟨t, by rw [h2]⟩
  have hC2d : C2 = [] ∨ ∃ C5, C2 = C5 ++ ['\n'] := by
    rcases C2 with _ | ⟨d, C3⟩
    · exact Or.inl rfl
    · right
      have h5 : C.getLast? = (d :: C3).getLast? := by
        rw [hC2]
        exact List.getLast?_cons_cons
      exact List.getLast?_eq_some_iff.mp (by rw [← h5]; exact hCl)
  have hTail : ∃ T : List (List Char), splitNl (endM ++ S) = endM :: T ∧
      (∀ l ∈ T, countOccur ctxM l = 0 ∧ countOccur endM l = 0) := by
    rcases hSd with rfl | ⟨S2, rfl⟩
    · refine ⟨[], ?_, by simp⟩
      rw [List.append_nil, splitNl_no_nl endM hendnl]
    · have hS2c : countOccur ctxM S2 = 0 := by
        have h6 := countOccur_le_cons ctxM '\n' S2
        have h7 : countOccur ctxM ('\n' :: S2) = 0 := hS.1
        omega
      have hS2e : countOccur endM S2 = 0 := by
        have h6 := countOccur_le_cons endM '\n' S2
        have h7 : countOccur endM ('\n' :: S2) = 0 := hS.2
        omega
      refine ⟨splitNl S2, ?_, ?_⟩
      · rw [splitNl_append endM S2, splitNl_no_nl endM hendnl]
        rfl
      · intro l hl
        exact ⟨mem_splitNl_count_zero ctxM (by decide) (by decide) S2 hS2c l hl,
          mem_splitNl_count_zero endM (by decide) (by decide) S2 hS2e l hl⟩
  obtain ⟨T, hT1, hT2⟩ := hTail
  have hMid : ∃ M : List (List Char),
      splitNl (C2 ++ (endM ++ S)) = M ++ endM :: T ∧
      (∀ l ∈ M, countOccur ctxM l = 0 ∧ countOccur endM l = 0) := by
    rcases hC2d with h0 | ⟨C5, h5⟩
    · refine ⟨[], ?_, by simp⟩
      rw [h0, List.nil_append, hT1, List.nil_append]
    · have h8 : countOccur ctxM C = 0 := hC.1
      have h9 : countOccur endM C = 0 := hC.2
      rw [hC2, h5] at h8 h9
      have hC5c : countOccur ctxM C5 = 0 := by
        have h6 := countOccur_le_cons ctxM '\n' (C5 ++ ['\n'])
        have h7 := countOccur_le_append ctxM C5 ['\n']
        omega
      have hC5e : countOccur endM C5 = 0 := by
        have h6 := countOccur_le_cons endM '\n' (C5 ++ ['\n'])
        have h7 := countOccur_le_append endM C5 ['\n']
        omega
      refine ⟨splitNl C5, ?_, ?_⟩
      · have hsh : C2 ++ (endM ++ S) = C5 ++ '\n' :: (endM ++ S) := by
          rw [h5]
          simp
        rw [hsh, splitNl_append C5 (endM ++ S), hT1]
      · intro l hl
        exact ⟨mem_splitNl_count_zero ctxM (by decide) (by decide) C5 hC5c l hl,
          mem_splitNl_count_zero endM (by decide) (by decide) C5 hC5e l hl⟩
  obtain ⟨M, hM1, hM2⟩ := hMid
  refine ⟨splitNl XB, M, T, ?_, splitNl_ne_nil XB, ?_⟩
  · have hdata : B ++ ctxM ++ C ++ endM ++ S
        = XB ++ '\n' :: (ctxM ++ '\n' :: (C2 ++ (endM ++ S))) := by
      rw [hXB, hC2]
      simp
    rw [hdata, splitNl_append XB _, splitNl_append ctxM _, splitNl_no_nl ctxM hctxnl, hM1]
    simp
  · intro l hl
    rcases hl with hl | hl | hl
    · exact hAfact l hl
    · exact hM2 l hl
    · exact hT2 l hl

theorem joinNl_region_build (A2 M2 T2 : List (List Char)) (hA : A2 ≠ [])
    (hAc : ∀ l ∈ A2, countOccur ctxM l = 0 ∧ countOccur endM l = 0)
    (hMc : ∀ l ∈ M2, countOccur ctxM l = 0 ∧ countOccur endM l = 0)
    (hTc : ∀ l ∈ T2, countOccur ctxM l = 0 ∧ countOccur endM l = 0) :
    RegionCharL (joinNl (A2 ++ ctxM :: (M2 ++ endM :: T2))) := by
  have hctxne : ctxM ≠ [] := by decide
  have hendne : endM ≠ [] := by decide
  have hctxnl : '\n' ∉ ctxM := by decide
  have hendnl : '\n' ∉ endM := by decide
  have hAj : countOccur ctxM (joinNl A2) = 0 ∧ countOccur endM (joinNl A2) = 0 :=
    ⟨countOccur_joinNl_zero ctxM hctxne hctxnl A2 (fun l hl => (hAc l hl).1),
     countOccur_joinNl_zero endM hendne hendnl A2 (fun l hl => (hAc l hl).2)⟩
  have hMj : countOccur ctxM (joinNl M2) = 0 ∧ countOccur endM (joinNl M2) = 0 :=
    ⟨countOccur_joinNl_zero ctxM hctxne hctxnl M2 (fun l hl => (hMc l hl).1),
     countOccur_joinNl_zero endM hendne hendnl M2 (fun l hl => (hMc l hl).2)⟩
  have hTj : countOccur ctxM (joinNl T2) = 0 ∧ countOccur endM (joinNl T2) = 0 :=
    ⟨countOccur_joinNl_zero ctxM hctxne hctxnl T2 (fun l hl => (hTc l hl).1),
     countOccur_joinNl_zero endM hendne hendnl T2 (fun l hl => (hTc l hl).2)⟩
  have e1 : joinNl (A2 ++ ctxM :: (M2 ++ endM :: T2))
      = joinNl A2 ++ '\n' :: joinNl (ctxM :: (M2 ++ endM :: T2)) :=
    joinNl_append A2 (ctxM :: (M2 ++ endM :: T2)) hA (by simp)
  have e2 : joinNl (ctxM :: (M2 ++ endM :: T2))
      = ctxM ++ '\n' :: joinNl (M2 ++ endM :: T2) := by
    have h := joinNl_append [ctxM] (M2 ++ endM :: T2) (by simp) (by simp)
    simpa using h
  have hBpart : countOccur ctxM (joinNl A2 ++ ['\n']) = 0 ∧
      countOccur endM (joinNl A2 ++ ['\n']) = 0 :=
    ⟨by rw [countOccur_concat_not_mem ctxM hctxne hctxnl]; exact hAj.1,
     by rw [countOccur_concat_not_mem endM hendne hendnl]; exact hAj.2⟩
  have hBlast : (joinNl A2 ++ ['\n']).getLast? = some '\n' := List.getLast?_concat _
  have hCfull : countOccur ctxM ('\n' :: (joinNl M2 ++ ['\n'])) = 0 ∧
      countOccur endM ('\n' :: (joinNl M2 ++ ['\n'])) = 0 :=
    ⟨by rw [countOccur_cons_not_mem ctxM hctxne hctxnl,
        countOccur_concat_not_mem ctxM hctxne hctxnl]; exact hMj.1,
     by rw [countOccur_cons_not_mem endM hendne hendnl,
        countOccur_concat_not_mem endM hendne hendnl]; exact hMj.2⟩
  have hCfullLast : ('\n' :: (joinNl M2 ++ ['\n'])).getLast? = some '\n' := by
    rw [show '\n' :: (joinNl M2 ++ ['\n']) = ('\n' :: joinNl M2) ++ ['\n'] by simp]
    exact List.getLast?_concat _
  have hSpart : countOccur ctxM ('\n' :: joinNl T2) = 0 ∧
      countOccur endM ('\n' :: joinNl T2) = 0 :=
    ⟨by rw [countOccur_cons_not_mem ctxM hctxne hctxnl]; exact hTj.1,
     by rw [countOccur_cons_not_mem endM hendne hendnl]; exact hTj.2⟩
  by_cases hT : T2 = []
  · have e4 : joinNl (endM :: T2) = endM := by
      rw [hT]
      rfl
    by_cases hM : M2 = []
    · have e3 : joinNl (M2 ++ endM :: T2) = joinNl (endM :: T2) := by
        rw [hM, List.nil_append]
      refine ⟨joinNl A2 ++ ['\n'], ['\n'], [], ?_, mfreeL_counts.mpr hBpart,
        mfreeL_counts.mpr ⟨by decide, by decide⟩, mfreeL_counts.mpr ⟨rfl, rfl⟩,
        hBlast, rfl, rfl, Or.inl rfl⟩
      rw [e1, e2, e3, e4]
      simp
    · have e3 : joinNl (M2 ++ endM :: T2)
          = joinNl M2 ++ '\n' :: joinNl (endM :: T2) :=
        joinNl_append M2 (endM :: T2) hM (by simp)
      refine ⟨joinNl A2 ++ ['\n'], '\n' :: (joinNl M2 ++ ['\n']), [], ?_,
        mfreeL_counts.mpr hBpart, mfreeL_counts.mpr hCfull,
        mfreeL_counts.mpr ⟨rfl, rfl⟩, hBlast, rfl, hCfullLast, Or.inl rfl⟩
      rw [e1, e2, e3, e4]
      simp
  · have e4 : joinNl (endM :: T2) = endM ++ '\n' :: joinNl T2 := by
      rcases T2 with _ | ⟨t0, ts⟩
      · exact absurd rfl hT
      · exact joinNl_cons_cons endM t0 ts
    by_cases hM : M2 = []
    · have e3 : joinNl (M2 ++ endM :: T2) = joinNl (endM :: T2) := by
        rw [hM, List.nil_append]
      refine ⟨joinNl A2 ++ ['\n'], ['\n'], '\n' :: joinNl T2, ?_,
        mfreeL_counts.mpr hBpart, mfreeL_counts.mpr ⟨by decide, by decide⟩,
        mfreeL_counts.mpr hSpart, hBlast, rfl, rfl, Or.inr rfl⟩
      rw [e1, e2, e3, e4]
      simp
    · have e3 : joinNl (M2 ++ endM :: T2)
          = joinNl M2 ++ '\n' :: joinNl (endM :: T2) :=
        joinNl_append M2 (endM :: T2) hM (by simp)
      refine ⟨joinNl A2 ++ ['\n'], '\n' :: (joinNl M2 ++ ['\n']), '\n' :: joinNl T2, ?_,
        mfreeL_counts.mpr hBpart, mfreeL_counts.mpr hCfull,
        mfreeL_counts.mpr hSpart, hBlast, rfl, hCfullLast, Or.inr rfl⟩
      rw [e1, e2, e3, e4]
      simp

theorem pyLines_eq (s : String) (hs : s ≠ "") :
    pyLines s =
      if ((splitNl s.data).map String.mk).getLast? = some ""
      then ((splitNl s.data).map String.mk).dropLast
      else (splitNl s.data).map String.mk := by
  rw [pyLines, if_neg hs]

theorem joinLines_data (ls : List String) :
    (joinLines ls).data = joinNl (ls.map String.data) := rfl

theorem rewardMangle_region (t lp : String) (r : Nat) (p : String)
    (h1 : pyStartsWith ctxMarker lp = false)
    (h2 : pyStartsWith endMarker lp = false)
    (hus : '_' ∉ lp.data)
    (h : RegionChar p) : RegionChar (rewardMangle t lp r p) := by
  rw [rewardMangle]
  by_cases htr : strContains p t = true
  · rw [if_pos htr]
    obtain ⟨B, C, S, hp, hfB, hfC, hfS, hBl, hCh, hCl, hSh⟩ := h
    obtain ⟨A, M, T, hL0, hAne, hlines⟩ := splitNl_region B C S (mfreeL_counts.mp hfB)
      (mfreeL_counts.mp hfC) (mfreeL_counts.mp hfS) hBl hCh hCl hSh
    have hL : splitNl p.data = A ++ ctxM :: (M ++ endM :: T) := by
      rw [hp]
      exact hL0
    have hpne : p ≠ "" := by
      intro h0
      have hlen := congrArg List.length hp
      have hz : ("" : String).data = [] := rfl
      rw [h0, hz] at hlen
      simp only [List.length_nil, List.length_append] at hlen
      have h11 : ctxM.length = 11 := by decide
      omega
    have hE : ∃ T2 : List (List Char),
        pyLines p = (A ++ ctxM :: (M ++ endM :: T2)).map String.mk ∧
        ∀ l ∈ T2, countOccur ctxM l = 0 ∧ countOccur endM l = 0 := by
      rw [pyLines_eq p hpne]
      by_cases hq : ((splitNl p.data).map String.mk).getLast? = some ""
      · have hqlast : (splitNl p.data).getLast? = some [] := by
          rw [List.getLast?_map] at hq
          rcases hql : (splitNl p.data).getLast? with _ | l
          · rw [hql] at hq
            cases hq
          · rw [hql] at hq
            have hq3 : some (String.mk l) = some "" := hq
            injection hq3 with hq2
            have hq5 : l = [] := congrArg String.data hq2
            rw [hq5]
        have hTne : T ≠ [] := by
          intro h0
          rw [h0] at hL
          have hsh : A ++ ctxM :: (M ++ endM :: ([] : List (List Char)))
              = (A ++ ctxM :: M) ++ [endM] := by simp
          rw [hL, hsh, List.getLast?_concat] at hqlast
          injection hqlast with h3
          exact (by decide : endM ≠ []) h3
        refine ⟨T.dropLast, ?_, ?_⟩
        · rw [if_pos hq, ← List.map_dropLast, hL]
          have hsh4 : A ++ ctxM :: (M ++ endM :: T)
              = (A ++ ctxM :: (M ++ [endM])) ++ T := by simp
          rw [hsh4, List.dropLast_append_of_ne_nil _ hTne]
          have hsh5 : (A ++ ctxM :: (M ++ [endM])) ++ T.dropLast
              = A ++ ctxM :: (M ++ endM :: T.dropLast) := by simp
          rw [hsh5]
        · intro l hl
          exact hlines l (Or.inr (Or.inr (List.dropLast_subset T hl)))
      · refine ⟨T, ?_, fun l hl => hlines l (Or.inr (Or.inr hl))⟩
        rw [if_neg hq, hL]
    obtain ⟨T2, hPL, hT2⟩ := hE
    have hdata : (joinLines ((pyLines p).map (fun line =>
        if pyStartsWith line lp then lp ++ " " ++ toString r else line))).data
        = joinNl ((A ++ ctxM :: (M ++ endM :: T2)).map (fun l =>
            (if pyStartsWith (String.mk l) lp then lp ++ " " ++ toString r
             else String.mk l).data)) := by
      rw [hPL, joinLines_data]
      simp only [List.map_map]
      rfl
    have hrep := replacement_line_counts lp r hus
    have hgood : ∀ l : List Char, countOccur ctxM l = 0 ∧ countOccur endM l = 0 →
        countOccur ctxM ((if pyStartsWith (String.mk l) lp then lp ++ " " ++ toString r
          else String.mk l).data) = 0 ∧
        countOccur endM ((if pyStartsWith (String.mk l) lp then lp ++ " " ++ toString r
          else String.mk l).data) = 0 := by
      intro l hl
      by_cases hpw : pyStartsWith (String.mk l) lp = true
      · rw [if_pos hpw]
        exact hrep
      · rw [if_neg hpw]
        exact hl
    have hgc : (fun l => (if pyStartsWith (String.mk l) lp then lp ++ " " ++ toString r
        else String.mk l).data) ctxM = ctxM := by
      have hc : pyStartsWith (String.mk ctxM) lp = false := h1
      simp only [hc, Bool.false_eq_true, if_false]
    have hge : (fun l => (if pyStartsWith (String.mk l) lp then lp ++ " " ++ toString r
        else String.mk l).data) endM = endM := by
      have hc : pyStartsWith (String.mk endM) lp = false := h2
      simp only [hc, Bool.false_eq_true, if_false]
    have hmap : (A ++ ctxM :: (M ++ endM :: T2)).map (fun l =>
        (if pyStartsWith (String.mk l) lp then lp ++ " " ++ toString r
         else String.mk l).data)
        = A.map (fun l => (if pyStartsWith (String.mk l) lp then lp ++ " " ++ toString r
            else String.mk l).data)
          ++ ctxM :: (M.map (fun l => (if pyStartsWith (String.mk l) lp
              then lp ++ " " ++ toString r else String.mk l).data)
            ++ endM :: T2.map (fun l => (if pyStartsWith (String.mk l) lp
              then lp ++ " " ++ toString r else String.mk l).data)) := by
      simp only [List.map_append, List.map_cons, hgc, hge]
    simp only [RegionChar]
    rw [hdata, hmap]
    apply joinNl_region_build
    · intro h0
      exact hAne (List.map_eq_nil_iff.mp h0)
    · intro l hl
      obtain ⟨l0, hl0, rfl⟩ := List.mem_map.mp hl
      exact hgood l0 (hlines l0 (Or.inl hl0))
    · intro l hl
      obtain ⟨l0, hl0, rfl⟩ := List.mem_map.mp hl
      exact hgood l0 (hlines l0 (Or.inr (Or.inl hl0)))
    · intro l hl
      obtain ⟨l0, hl0, rfl⟩ := List.mem_map.mp hl
      exact hgood l0 (hT2 l0 hl0)
  · rw [if_neg htr]
    exact h

/-! ## The context-manager writes as region builders (claim C8) -/

theorem string_ext {a b : String} (h : a.data = b.data) : a = b := congrArg String.mk h

theorem splitHeadS_of_mfree_ctx (p : String) (h : containsLit ctxM p.data = false) :
    splitHeadS ctxMarker p = p := by
  rw [splitHeadS_eq, show ctxMarker.data = ctxM from rfl,
    (splitHeadL_of_not_contains ctxM p.data h).1]

theorem base_counts (p : String) (h : GoodPrompt p) :
    countOccur ctxM (splitHeadS ctxMarker p).data = 0 ∧
    countOccur endM (splitHeadS ctxMarker p).data = 0 := by
  rcases h with h | h
  · obtain ⟨B, C, S, hp, hB, hC, hS, hBl, hCh, hCl, hSh⟩ := h
    have hf := region_facts p B C S hp (mfreeL_counts.mp hB) (mfreeL_counts.mp hC)
      (mfreeL_counts.mp hS) hBl hCh hCl hSh
    rw [hf.2.2.2.2.1]
    exact mfreeL_counts.mp hB
  · rw [splitHeadS_of_mfree_ctx p h.1]
    exact mfree_counts.mp h

theorem region_contains (p : String) (h : RegionChar p) :
    strContains p ctxMarker = true := by
  obtain ⟨B, C, S, hp, hB, hC, hS, hBl, hCh, hCl, hSh⟩ := h
  exact (region_facts p B C S hp (mfreeL_counts.mp hB) (mfreeL_counts.mp hC)
    (mfreeL_counts.mp hS) hBl hCh hCl hSh).2.2.2.1

theorem pyRstripS_counts (s : String)
    (h : countOccur ctxM s.data = 0 ∧ countOccur endM s.data = 0) :
    countOccur ctxM (pyRstripS s).data = 0 ∧ countOccur endM (pyRstripS s).data = 0 := by
  obtain ⟨t, ht⟩ := pyRstrip_prefix s.data
  have h1 := countOccur_le_append ctxM (pyRstrip s.data) t
  have h2 := countOccur_le_append endM (pyRstrip s.data) t
  rw [← ht] at h1 h2
  have h3 := h.1
  have h4 := h.2
  exact ⟨by show countOccur ctxM (pyRstrip s.data) = 0; omega,
    by show countOccur endM (pyRstrip s.data) = 0; omega⟩

theorem pyStripS_counts (s : String)
    (h : countOccur ctxM s.data = 0 ∧ countOccur endM s.data = 0) :
    countOccur ctxM (pyStripS s).data = 0 ∧ countOccur endM (pyStripS s).data = 0 := by
  obtain ⟨u, v, huv⟩ := pyStrip_infix s.data
  have h1 : countOccur ctxM (u ++ pyStrip s.data ++ v) = 0 := by
    rw [← huv]
    exact h.1
  have h2 : countOccur endM (u ++ pyStrip s.data ++ v) = 0 := by
    rw [← huv]
    exact h.2
  exact ⟨countOccur_infix_zero ctxM u _ v h1, countOccur_infix_zero endM u _ v h2⟩

theorem summary_if_mfree (p : String) (hgp : GoodPrompt p) :
    mfree (if strContains p ctxMarker then pyStripS (region_extract p) else "") := by
  rcases hgp with h | h
  · obtain ⟨B, C, S, hp, hB, hC, hS, hBl, hCh, hCl, hSh⟩ := h
    have hf := region_facts p B C S hp (mfreeL_counts.mp hB) (mfreeL_counts.mp hC)
      (mfreeL_counts.mp hS) hBl hCh hCl hSh
    rw [if_pos hf.2.2.2.1, hf.2.2.2.2.2]
    exact mfree_counts.mpr (pyStripS_counts _ (mfreeL_counts.mp hC))
  · by_cases hc : strContains p ctxMarker = true
    · exfalso
      have h1 := h.1
      rw [strContains, show ctxMarker.data = ctxM from rfl] at hc
      rw [hc] at h1
      cases h1
    · rw [if_neg hc]
      exact mfree_counts.mpr ⟨rfl, rfl⟩

theorem ctx_system_prompt_region (m0 s : String) (hm0 : GoodPrompt m0) (hs : mfree s) :
    RegionChar (ctx_system_prompt m0 s) ∧
    region_extract (ctx_system_prompt m0 s) = "\n" ++ s ++ "\n" := by
  have hctxne : ctxM ≠ [] := by decide
  have hendne : endM ≠ [] := by decide
  have hctxnl : '\n' ∉ ctxM := by decide
  have hendnl : '\n' ∉ endM := by decide
  have hbase : countOccur ctxM (if strContains m0 ctxMarker
        then splitHeadS ctxMarker m0 else m0).data = 0 ∧
      countOccur endM (if strContains m0 ctxMarker
        then splitHeadS ctxMarker m0 else m0).data = 0 := by
    by_cases hc : strContains m0 ctxMarker = true
    · rw [if_pos hc]
      exact base_counts m0 hm0
    · rw [if_neg hc]
      rcases hm0 with h | h
      · exact absurd (region_contains m0 h) hc
      · exact mfree_counts.mp h
  set base := if strContains m0 ctxMarker then splitHeadS ctxMarker m0 else m0 with hbdef
  have hsc := mfree_counts.mp hs
  have hp : (ctx_system_prompt m0 s).data
      = (base.data ++ ['\n', '\n']) ++ ctxM ++ ('\n' :: (s.data ++ ['\n'])) ++ endM ++ [] := by
    rw [ctx_system_prompt, ← hbdef]
    have l1 : ("\n\n" : String).data = ['\n', '\n'] := rfl
    have l2 : ("\n" : String).data = ['\n'] := rfl
    simp [String.data_append, l1, l2, ctxM, endM]
  have hBc : countOccur ctxM (base.data ++ ['\n', '\n']) = 0 ∧
      countOccur endM (base.data ++ ['\n', '\n']) = 0 := by
    have hsh : base.data ++ ['\n', '\n'] = (base.data ++ ['\n']) ++ ['\n'] := by simp
    constructor
    · rw [hsh, countOccur_concat_not_mem ctxM hctxne hctxnl,
        countOccur_concat_not_mem ctxM hctxne hctxnl]
      exact hbase.1
    · rw [hsh, countOccur_concat_not_mem endM hendne hendnl,
        countOccur_concat_not_mem endM hendne hendnl]
      exact hbase.2
  have hCc : countOccur ctxM ('\n' :: (s.data ++ ['\n'])) = 0 ∧
      countOccur endM ('\n' :: (s.data ++ ['\n'])) = 0 := by
    constructor
    · rw [countOccur_cons_not_mem ctxM hctxne hctxnl,
        countOccur_concat_not_mem ctxM hctxne hctxnl]
      exact hsc.1
    · rw [countOccur_cons_not_mem endM hendne hendnl,
        countOccur_concat_not_mem endM hendne hendnl]
      exact hsc.2
  have hBlast : (base.data ++ ['\n', '\n']).getLast? = some '\n' := by
    rw [show base.data ++ ['\n', '\n'] = (base.data ++ ['\n']) ++ ['\n'] by simp]
    exact List.getLast?_concat _
  have hClast : ('\n' :: (s.data ++ ['\n'])).getLast? = some '\n' := by
    rw [show '\n' :: (s.data ++ ['\n']) = ('\n' :: s.data) ++ ['\n'] by simp]
    exact List.getLast?_concat _
  have hf := region_facts (ctx_system_prompt m0 s) (base.data ++ ['\n', '\n'])
    ('\n' :: (s.data ++ ['\n'])) [] hp hBc hCc ⟨rfl, rfl⟩ hBlast rfl hClast (Or.inl rfl)
  refine ⟨hf.1, ?_⟩
  rw [hf.2.2.2.2.2]
  apply string_ext
  show '\n' :: (s.data ++ ['\n']) = ("\n" ++ s ++ "\n").data
  have l2 : ("\n" : String).data = ['\n'] := rfl
  simp [String.data_append, l2]

theorem defer_prompt_region (base a : String)
    (hbase : countOccur ctxM base.data = 0 ∧ countOccur endM base.data = 0)
    (ha : mfree a) : RegionChar (defer_prompt base a) := by
  have hctxne : ctxM ≠ [] := by decide
  have hendne : endM ≠ [] := by decide
  have hctxnl : '\n' ∉ ctxM := by decide
  have hendnl : '\n' ∉ endM := by decide
  have hac := mfree_counts.mp ha
  have hp : (defer_prompt base a).data
      = (base.data ++ ['\n']) ++ ctxM
        ++ ('\n' :: ("<current_task>".data ++ '\n' :: (a.data
          ++ '\n' :: ("</current_task>".data ++ ['\n'])))) ++ endM ++ [] := by
    rw [defer_prompt]
    have l1 : ("\n" : String).data = ['\n'] := rfl
    have l2 : ("\n<current_task>\n").data = '\n' :: ("<current_task>".data ++ ['\n']) := rfl
    have l3 : ("\n</current_task>\n").data = '\n' :: ("</current_task>".data ++ ['\n']) := rfl
    simp [String.data_append, l1, l2, l3, ctxM, endM]
  have hBc : countOccur ctxM (base.data ++ ['\n']) = 0 ∧
      countOccur endM (base.data ++ ['\n']) = 0 := by
    constructor
    · rw [countOccur_concat_not_mem ctxM hctxne hctxnl]
      exact hbase.1
    · rw [countOccur_concat_not_mem endM hendne hendnl]
      exact hbase.2
  have hCc : ∀ m : List Char, m ≠ [] → '\n' ∉ m → countOccur m a.data = 0 →
      countOccur m "<current_task>".data = 0 → countOccur m "</current_task>".data = 0 →
      countOccur m ('\n' :: ("<current_task>".data ++ '\n' :: (a.data
        ++ '\n' :: ("</current_task>".data ++ ['\n'])))) = 0 := by
    intro m hm hmnl h1 h2 h3
    rw [countOccur_cons_not_mem m hm hmnl,
      countOccur_append_cons m hm hmnl "<current_task>".data _,
      countOccur_append_cons m hm hmnl a.data _,
      countOccur_concat_not_mem m hm hmnl]
    omega
  have hClast : ('\n' :: ("<current_task>".data ++ '\n' :: (a.data
      ++ '\n' :: ("</current_task>".data ++ ['\n'])))).getLast? = some '\n' := by
    rw [show '\n' :: ("<current_task>".data ++ '\n' :: (a.data
        ++ '\n' :: ("</current_task>".data ++ ['\n'])))
      = ('\n' :: ("<current_task>".data ++ '\n' :: (a.data
        ++ '\n' :: "</current_task>".data))) ++ ['\n'] by simp]
    exact List.getLast?_concat _
  exact (region_facts (defer_prompt base a) (base.data ++ ['\n']) _ [] hp hBc
    ⟨hCc ctxM hctxne hctxnl hac.1 (by decide) (by decide),
     hCc endM hendne hendnl hac.2 (by decide) (by decide)⟩
    ⟨rfl, rfl⟩ (List.getLast?_concat _) rfl hClast (Or.inl rfl)).1

set_option maxRecDepth 20000 in
theorem complete_prompt_region (base content : String)
    (hbase : countOccur ctxM base.data = 0 ∧ countOccur endM base.data = 0)
    (hcontent : countOccur ctxM content.data = 0 ∧ countOccur endM content.data = 0) :
    RegionChar (complete_prompt base content) := by
  have hctxne : ctxM ≠ [] := by decide
  have hendne : endM ≠ [] := by decide
  have hctxnl : '\n' ∉ ctxM := by decide
  have hendnl : '\n' ∉ endM := by decide
  have hp : (complete_prompt base content).data
      = (base.data ++ ['\n']) ++ ctxM ++ ('\n' :: (content.data ++ ['\n'])) ++ endM
        ++ completeInstruction.data := by
    rw [complete_prompt]
    have l1 : ("\n" : String).data = ['\n'] := rfl
    simp [String.data_append, l1, ctxM, endM]
  have hBc : countOccur ctxM (base.data ++ ['\n']) = 0 ∧
      countOccur endM (base.data ++ ['\n']) = 0 := by
    constructor
    · rw [countOccur_concat_not_mem ctxM hctxne hctxnl]
      exact hbase.1
    · rw [countOccur_concat_not_mem endM hendne hendnl]
      exact hbase.2
  have hCc : countOccur ctxM ('\n' :: (content.data ++ ['\n'])) = 0 ∧
      countOccur endM ('\n' :: (content.data ++ ['\n'])) = 0 := by
    constructor
    · rw [countOccur_cons_not_mem ctxM hctxne hctxnl,
        countOccur_concat_not_mem ctxM hctxne hctxnl]
      exact hcontent.1
    · rw [countOccur_cons_not_mem endM hendne hendnl,
        countOccur_concat_not_mem endM hendne hendnl]
      exact hcontent.2
  have hClast : ('\n' :: (content.data ++ ['\n'])).getLast? = some '\n' := by
    rw [show '\n' :: (content.data ++ ['\n']) = ('\n' :: content.data) ++ ['\n'] by simp]
    exact List.getLast?_concat _
  exact (region_facts (complete_prompt base content) (base.data ++ ['\n']) _
    completeInstruction.data hp hBc hCc ⟨by decide, by decide⟩ (List.getLast?_concat _)
    rfl hClast (Or.inr rfl)).1

theorem complete_summary_counts (cs : String) (tail : List Msg) (ns : String)
    (hcs : countOccur ctxM cs.data = 0 ∧ countOccur endM cs.data = 0)
    (htail : ∀ m ∈ tail,
      (countOccur ctxM m.role.data = 0 ∧ countOccur endM m.role.data = 0) ∧
      (countOccur ctxM m.content.data = 0 ∧ countOccur endM m.content.data = 0))
    (hns : countOccur ctxM ns.data = 0 ∧ countOccur endM ns.data = 0) :
    countOccur ctxM (complete_summary cs tail ns).data = 0 ∧
    countOccur endM (complete_summary cs tail ns).data = 0 := by
  have key : ∀ m : List Char, m ≠ [] → '\n' ∉ m → ':' ∉ m → ' ' ∉ m →
      countOccur m cs.data = 0 →
      (∀ msg ∈ tail, countOccur m msg.role.data = 0 ∧ countOccur m msg.content.data = 0) →
      countOccur m ns.data = 0 →
      countOccur m "Status: COMPLETE".data = 0 →
      countOccur m "Previous sub-task: COMPLETE".data = 0 →
      countOccur m "<conversation>".data = 0 →
      countOccur m "</conversation>".data = 0 →
      countOccur m "---".data = 0 →
      countOccur m "Context from when this task was deferred:".data = 0 →
      countOccur m (complete_summary cs tail ns).data = 0 := by
    intro m hm hmnl hmcol hmsp h1 h2 h3 hl1 hl2 hl3 hl4 hl5 hl6
    have htr : countOccur m
        (joinLines (tail.map fun msg => msg.role ++ ": " ++ msg.content)).data = 0 := by
      rw [joinLines_data]
      apply countOccur_joinNl_zero m hm hmnl
      intro l hl
      rw [List.map_map] at hl
      obtain ⟨msg, hmsg, rfl⟩ := List.mem_map.mp hl
      show countOccur m (msg.role ++ ": " ++ msg.content).data = 0
      have hsh : (msg.role ++ ": " ++ msg.content).data
          = msg.role.data ++ ':' :: (' ' :: msg.content.data) := by
        have l0 : (": " : String).data = [':', ' '] := rfl
        simp [String.data_append, l0]
      rw [hsh, countOccur_append_cons m hm hmcol msg.role.data _,
        countOccur_cons_not_mem m hm hmsp]
      have h4 := h2 msg hmsg
      omega
    rw [complete_summary]
    set c0 := if cs ≠ "" then cs ++ "\nStatus: COMPLETE" else "Previous sub-task: COMPLETE"
      with hc0
    set c1 := if tail.length > 0 then
        c0 ++ "\n\n<conversation>\n"
          ++ joinLines (tail.map fun msg => msg.role ++ ": " ++ msg.content)
          ++ "\n</conversation>"
      else c0 with hc1
    have hcount0 : countOccur m c0.data = 0 := by
      rw [hc0]
      split
      · have e : (cs ++ "\nStatus: COMPLETE").data
            = cs.data ++ '\n' :: "Status: COMPLETE".data := by
          have lA : ("\nStatus: COMPLETE" : String).data
              = '\n' :: "Status: COMPLETE".data := rfl
          simp [String.data_append, lA]
        rw [e, countOccur_append_cons m hm hmnl]
        omega
      · exact hl2
    have hcount1 : countOccur m c1.data = 0 := by
      rw [hc1]
      split
      · have e : (c0 ++ "\n\n<conversation>\n"
              ++ joinLines (tail.map fun msg => msg.role ++ ": " ++ msg.content)
              ++ "\n</conversation>").data
            = c0.data ++ '\n' :: ('\n' :: ("<conversation>".data ++ '\n'
              :: ((joinLines (tail.map fun msg => msg.role ++ ": " ++ msg.content)).data
                ++ '\n' :: "</conversation>".data))) := by
          have lA : ("\n\n<conversation>\n" : String).data
              = '\n' :: ('\n' :: ("<conversation>".data ++ ['\n'])) := rfl
          have lB : ("\n</conversation>" : String).data
              = '\n' :: "</conversation>".data := rfl
          simp [String.data_append, lA, lB]
        rw [e, countOccur_append_cons m hm hmnl c0.data _,
          countOccur_cons_not_mem m hm hmnl,
          countOccur_append_cons m hm hmnl "<conversation>".data _,
          countOccur_append_cons m hm hmnl
            (joinLines (tail.map fun msg => msg.role ++ ": " ++ msg.content)).data _]
        omega
      · exact hcount0
    split
    · have e : (c1 ++ "\n\n---\nContext from when this task was deferred:\n" ++ ns).data
          = c1.data ++ '\n' :: ('\n' :: ("---".data ++ '\n'
            :: ("Context from when this task was deferred:".data ++ '\n' :: ns.data))) := by
        have lA : ("\n\n---\nContext from when this task was deferred:\n" : String).data
            = '\n' :: ('\n' :: ("---".data ++ '\n'
              :: ("Context from when this task was deferred:".data ++ ['\n']))) := rfl
        simp [String.data_append, lA]
      rw [e, countOccur_append_cons m hm hmnl c1.data _,
        countOccur_cons_not_mem m hm hmnl,
        countOccur_append_cons m hm hmnl "---".data _,
        countOccur_append_cons m hm hmnl "Context from when this task was deferred:".data _]
      omega
    · exact hcount1
  exact ⟨key ctxM (by decide) (by decide) (by decide) (by decide) hcs.1
      (fun msg hmsg => ⟨((htail msg hmsg).1).1, ((htail msg hmsg).2).1⟩) hns.1
      (by decide) (by decide) (by decide) (by decide) (by decide) (by decide),
    key endM (by decide) (by decide) (by decide) (by decide) hcs.2
      (fun msg hmsg => ⟨((htail msg hmsg).1).2, ((htail msg hmsg).2).2⟩) hns.2
      (by decide) (by decide) (by decide) (by decide) (by decide) (by decide)⟩

/-! ## Invariant preservation by each context operation (claim C8) -/

theorem msg0Of_eq (st : LLMState) (h0 : String) (rest : List Msg)
    (hmsgs : st.messages = ⟨"system", h0⟩ :: rest) : msg0Of st = h0 := by
  simp [msg0Of, hmsgs]

theorem mem_drop_dropLast {α : Type} (a : α) (l : List α) (k : Nat) (hk : 1 ≤ k) :
    ∀ x ∈ ((a :: l).dropLast).drop k, x ∈ l := by
  intro x hx
  rcases l with _ | ⟨b, l2⟩
  · simp at hx
  · have e : ((a :: b :: l2).dropLast) = a :: (b :: l2).dropLast := rfl
    rw [e] at hx
    rcases k with _ | k2
    · omega
    · rw [List.drop_succ_cons] at hx
      exact (List.dropLast_subset _) (List.drop_subset _ _ hx)

theorem update_recent_mem (st : LLMState) (h0 : String) (rest : List Msg)
    (hmsgs : st.messages = ⟨"system", h0⟩ :: rest) (n : Int) :
    ∀ msg ∈ (if n = 0 then ([] : List Msg)
      else if ((st.messages.dropLast).length : Int) > n * 2 then
        pySliceFrom (-(n * 2)) (st.messages.dropLast)
      else (st.messages.dropLast).drop 1),
      msg ∈ rest := by
  intro msg hmem
  by_cases hn0 : n = 0
  · rw [if_pos hn0] at hmem
    simp at hmem
  · rw [if_neg hn0] at hmem
    by_cases hgt : ((st.messages.dropLast).length : Int) > n * 2
    · rw [if_pos hgt] at hmem
      rw [pySliceFrom] at hmem
      by_cases hpos : (0 : Int) ≤ -(n * 2)
      · rw [if_pos hpos] at hmem
        rw [hmsgs] at hmem
        refine mem_drop_dropLast _ rest _ ?_ msg hmem
        omega
      · rw [if_neg hpos] at hmem
        rw [hmsgs] at hmem hgt
        refine mem_drop_dropLast _ rest _ ?_ msg hmem
        have hlen : (((⟨"system", h0⟩ : Msg) :: rest).dropLast).length = rest.length := by
          simp
        rw [hlen] at hgt ⊢
        omega
    · rw [if_neg hgt] at hmem
      rw [hmsgs] at hmem
      exact mem_drop_dropLast _ rest _ (le_refl 1) msg hmem

theorem update_context_good (st : LLMState) (n : Int) (s : String)
    (h : GoodLLM st) (hs : mfree s) :
    GoodLLM (update_context st n s).1 ∧
    RegionChar (msg0Of (update_context st n s).1) ∧
    region_extract (msg0Of (update_context st n s).1) = "\n" ++ s ++ "\n" := by
  obtain ⟨hsp, ⟨h0, rest, hmsgs, hh0, hrest⟩, hstack⟩ := h
  have hm0 : msg0Of st = h0 := msg0Of_eq st h0 rest hmsgs
  have hctx := ctx_system_prompt_region (msg0Of st) s (by rw [hm0]; exact hh0) hs
  have hrecmem := update_recent_mem st h0 rest hmsgs n
  rw [update_context]
  split
  · -- a kept turn remains: the head message is rebuilt, the kept window follows
    dsimp only
    refine ⟨⟨hsp, ⟨ctx_system_prompt (msg0Of st) s, _, rfl, Or.inl hctx.1, ?_⟩, hstack⟩,
      ?_, ?_⟩
    · intro m hm
      exact hrest m (hrecmem m (List.dropLast_subset _ hm))
    · rw [msg0Of_eq _ (ctx_system_prompt (msg0Of st) s) _ rfl]
      exact hctx.1
    · rw [msg0Of_eq _ (ctx_system_prompt (msg0Of st) s) _ rfl]
      exact hctx.2
  · -- no kept turns: only the rebuilt system message remains
    dsimp only
    refine ⟨⟨hsp, ⟨ctx_system_prompt (msg0Of st) s, [], rfl, Or.inl hctx.1, by simp⟩,
      hstack⟩, ?_, ?_⟩
    · rw [msg0Of_eq _ (ctx_system_prompt (msg0Of st) s) [] rfl]
      exact hctx.1
    · rw [msg0Of_eq _ (ctx_system_prompt (msg0Of st) s) [] rfl]
      exact hctx.2

theorem do_later_good (st : LLMState) (a b : String) (h : GoodLLM st) (ha : mfree a) :
    GoodLLM (do_later st a b).1 ∧ RegionChar ((do_later st a b).1).system_prompt := by
  obtain ⟨hsp, ⟨h0, rest, hmsgs, hh0, hrest⟩, hstack⟩ := h
  have hbase := pyRstripS_counts _ (base_counts st.system_prompt hsp)
  have hreg := rewardMangle_region "# $$REWARD$$:" "# $$REWARD$$:" (st.llm_reward + 1)
    (defer_prompt (pyRstripS (splitHeadS ctxMarker st.system_prompt)) a)
    (by decide) (by decide) (by decide)
    (defer_prompt_region _ a hbase ha)
  have hsum := summary_if_mfree st.system_prompt hsp
  rw [do_later]
  dsimp only
  refine ⟨⟨Or.inl hreg, ⟨_, [], rfl, Or.inl hreg, by simp⟩, ?_⟩, hreg⟩
  intro d hd
  rcases List.mem_append.mp hd with hd | hd
  · exact hstack d hd
  · rw [List.mem_singleton] at hd
    rw [hd]
    exact hsum

theorem complete_good (st : LLMState) (h : GoodLLM st) :
    GoodLLM (complete_current_and_get_next st).1 ∧
    (st.deferred_tasks ≠ [] →
      RegionChar ((complete_current_and_get_next st).1).system_prompt) := by
  obtain ⟨hsp, ⟨h0, rest, hmsgs, hh0, hrest⟩, hstack⟩ := h
  rw [complete_current_and_get_next]
  split
  · -- empty stack: the call is the identity on the state
    dsimp only
    refine ⟨⟨hsp, ⟨h0, rest, hmsgs, hh0, hrest⟩, hstack⟩, ?_⟩
    intro hne
    rename_i heq
    exact absurd (List.getLast?_eq_none_iff.mp heq) hne
  · rename_i next_task heq
    dsimp only
    have hsum := mfree_counts.mp (summary_if_mfree st.system_prompt hsp)
    have hnext : next_task ∈ st.deferred_tasks := by
      obtain ⟨l2, hl2⟩ := List.getLast?_eq_some_iff.mp heq
      rw [hl2]
      exact List.mem_append_right _ (List.mem_singleton_self _)
    have hns := mfree_counts.mp (hstack next_task hnext)
    have htailc : ∀ m ∈ st.messages.drop 1,
        (countOccur ctxM m.role.data = 0 ∧ countOccur endM m.role.data = 0) ∧
        (countOccur ctxM m.content.data = 0 ∧ countOccur endM m.content.data = 0) := by
      intro m hm
      rw [hmsgs, List.drop_succ_cons, List.drop_zero] at hm
      have h5 := hrest m hm
      exact ⟨mfree_counts.mp h5.1, mfree_counts.mp h5.2⟩
    have hbasec : countOccur ctxM (if strContains st.system_prompt ctxMarker
          then pyRstripS (splitHeadS ctxMarker st.system_prompt)
          else st.system_prompt).data = 0 ∧
        countOccur endM (if strContains st.system_prompt ctxMarker
          then pyRstripS (splitHeadS ctxMarker st.system_prompt)
          else st.system_prompt).data = 0 := by
      by_cases hc : strContains st.system_prompt ctxMarker = true
      · rw [if_pos hc]
        exact pyRstripS_counts _ (base_counts st.system_prompt hsp)
      · rw [if_neg hc]
        rcases hsp with h2 | h2
        · exact absurd (region_contains _ h2) hc
        · exact mfree_counts.mp h2
    have hcont := complete_summary_counts
      (if strContains st.system_prompt ctxMarker
        then pyStripS (region_extract st.system_prompt) else "")
      (st.messages.drop 1) next_task.summary hsum htailc hns
    have hreg := rewardMangle_region "$$REWARD$$:" "$$REWARD$$:" st.llm_reward
      (complete_prompt
        (if strContains st.system_prompt ctxMarker
          then pyRstripS (splitHeadS ctxMarker st.system_prompt) else st.system_prompt)
        (complete_summary
          (if strContains st.system_prompt ctxMarker
            then pyStripS (region_extract st.system_prompt) else "")
          (st.messages.drop 1) next_task.summary))
      (by decide) (by decide) (by decide)
      (complete_prompt_region _ _ hbasec hcont)
    refine ⟨⟨Or.inl hreg, ⟨_, [], rfl, Or.inl hreg,
      fun m hm => absurd hm (List.not_mem_nil m)⟩, ?_⟩, fun _ => hreg⟩
    intro d hd
    exact hstack d (List.dropLast_subset _ hd)

theorem applyOp_good (st : LLMState) (h : GoodLLM st) (op : CtxOp) (hop : OpOK op) :
    GoodLLM (applyOp st op) := by
  rcases op with ⟨n, s⟩ | ⟨a, b⟩ | _
  · exact (update_context_good st n s h hop).1
  · exact (do_later_good st a b h hop.1).1
  · exact (complete_good st h).1

theorem foldl_good (ops : List CtxOp) :
    ∀ st : LLMState, GoodLLM st → (∀ op ∈ ops, OpOK op) →
      GoodLLM (ops.foldl applyOp st) := by
  induction ops with
  | nil =>
    intro st h _
    exact h
  | cons op ops2 ih =>
    intro st h hops
    rw [List.foldl_cons]
    exact ih (applyOp st op) (applyOp_good st h op (hops op (List.mem_cons_self op ops2)))
      (fun o ho => hops o (List.mem_cons_of_mem op ho))

theorem initLLMState_good (sp : String) (hsp : mfree sp) : GoodLLM (initLLMState sp) :=
  ⟨Or.inr hsp, ⟨sp, [], rfl, Or.inr hsp, fun m hm => absurd hm (List.not_mem_nil m)⟩,
    fun d hd => absurd hd (List.not_mem_nil d)⟩

/-- C8: over every sequence of `update_context`, `do_later`, and
`complete_current_and_get_next` operations whose summary and task strings are
free of the marker tokens, the interface invariant `GoodLLM` is preserved
(and holds for a fresh interface with a marker-free system prompt); in any
invariant state the stored system prompt contains each of the fixed markers
`__context__` and `__end_context__` either exactly once — one contiguous
well-delimited region — or not at all (before the first context write);
`update_context` fully replaces the region content with exactly the new
summary surrounded by the two junction newlines, independent of the previous
content; and `do_later` and a non-empty-stack `complete_current_and_get_next`
rewrite the system prompt to a single well-delimited region. -/
theorem claim_C8 :
    (∀ sp : String, mfree sp → GoodLLM (initLLMState sp)) ∧
    (∀ (st : LLMState) (ops : List CtxOp), GoodLLM st → (∀ op ∈ ops, OpOK op) →
      GoodLLM (ops.foldl applyOp st)) ∧
    (∀ st : LLMState, GoodLLM st →
      (countOccur ctxM st.system_prompt.data = 1 ∧
        countOccur endM st.system_prompt.data = 1) ∨
      (countOccur ctxM st.system_prompt.data = 0 ∧
        countOccur endM st.system_prompt.data = 0)) ∧
    (∀ (st : LLMState) (n : Int) (s : String), GoodLLM st → mfree s →
      region_extract (msg0Of (update_context st n s).1) = "\n" ++ s ++ "\n") ∧
    (∀ (st : LLMState) (a b : String), GoodLLM st → mfree a →
      RegionChar ((do_later st a b).1).system_prompt) ∧
    (∀ st : LLMState, GoodLLM st → st.deferred_tasks ≠ [] →
      RegionChar ((complete_current_and_get_next st).1).system_prompt) :=
  ⟨initLLMState_good,
   fun st ops h hops => foldl_good ops st h hops,
   fun st h => goodPrompt_counts st.system_prompt h.1,
   fun st n s h hs => (update_context_good st n s h hs).2.2,
   fun st a b h ha => (do_later_good st a b h ha).2,
   fun st h hne => (complete_good st h).2 hne⟩

/-- Witness for C8: a fresh interface with a marker-free prompt stays in the
invariant across a concrete summarize/defer/complete sequence, and the
concrete `update_context` write replaces the region with its summary. -/
theorem claim_C8_witness :
    GoodLLM ([CtxOp.update 0 "collected facts", CtxOp.defer "task A" "task B",
      CtxOp.completeNext].foldl applyOp (initLLMState "You are a coding agent.")) ∧
    region_extract (msg0Of (update_context (initLLMState "You are a coding agent.")
      0 "collected facts").1) = "\n" ++ "collected facts" ++ "\n" := by
  have hinit := claim_C8.1 "You are a coding agent." ⟨by decide, by decide⟩
  constructor
  · refine claim_C8.2.1 (initLLMState "You are a coding agent.") _ hinit ?_
    intro op hop
    rcases List.mem_cons.mp hop with h1 | hop
    · rw [h1]
      exact (⟨by decide, by decide⟩ :
        containsLit ctxM ("collected facts").data = false ∧
        containsLit endM ("collected facts").data = false)
    rcases List.mem_cons.mp hop with h1 | hop
    · rw [h1]
      exact ⟨⟨by decide, by decide⟩, ⟨by decide, by decide⟩⟩
    rcases List.mem_cons.mp hop with h1 | hop
    · rw [h1]
      trivial
    · exact absurd hop (List.not_mem_nil op)
  · exact claim_C8.2.2.2.1 (initLLMState "You are a coding agent.") 0 "collected facts"
      hinit ⟨by decide, by decide⟩

end Microbots
